import Mathlib

/-!
# Verification of the statics-calculator solving engine

A shallow embedding, over exact rational arithmetic, of the core of the
statics calculator (`src/math.ts`: structural validation, the reaction-force
stage, the member-force stage, and the generic linear equation solver), and
of the structure parser (`parseState` and friends).

Modelling conventions, used throughout:

* JavaScript `number` is modelled by `ℚ` (the claims under study are about
  the engine's behaviour in exact arithmetic).  `Math.sqrt` is modelled by
  `sqrtQ`, which is exact on perfect rational squares; on other inputs the
  (irrational) result is not representable in `ℚ` and a positive stand-in is
  returned.  No theorem below depends on the stand-in value.
* A JavaScript runtime `TypeError` (dereferencing `undefined`/`null`) is
  modelled by `Except.error`; code that cannot crash returns `Except.ok` or
  is a plain function.
* A JavaScript `Map` is modelled by an insertion-ordered association list:
  `mapSet` overwrites in place (keeping the original position, as JS does)
  or appends; iteration order is list order.
* The string variable names of the equation solver (`"<jointId>_x"`,
  `"<jointId>_y"` for reaction unknowns, `"<memberId>"` for member
  unknowns) are modelled by the key types `ℤ × Axis` and `ℤ`.  Since
  integers print injectively and the printed id contains no `'_'`,
  string-key equality in the source coincides with equality of these keys,
  and `parseInt` of the printed id recovers the id; the `split('_')` /
  `parseInt` round trip of the source is therefore the identity in the
  model.  Joint and member ids are integers per the data-model section of
  the specification.
-/

/- The Batteries rational-arithmetic primitives are `@[irreducible]`, which
blocks `decide`/`rfl` evaluation of the (exact, computable) model on
concrete structures; lift this locally so the kernel can evaluate. -/
attribute [local semireducible] Rat.add Rat.mul Rat.inv Rat.sub Rat.ofScientific

/-- Decidable equality of `Except` results, for evaluating the model on
concrete inputs. -/
instance {e a : Type} [DecidableEq e] [DecidableEq a] : DecidableEq (Except e a) := fun x y =>
  match x, y with
  | .error e1, .error e2 =>
      if h : e1 = e2 then isTrue (by rw [h]) else isFalse (fun he => h (Except.error.inj he))
  | .ok v1, .ok v2 =>
      if h : v1 = v2 then isTrue (by rw [h]) else isFalse (fun he => h (Except.ok.inj he))
  | .error _, .ok _ => isFalse (fun he => Except.noConfusion he)
  | .ok _, .error _ => isFalse (fun he => Except.noConfusion he)

namespace Statics

/-- Floor square root on naturals by downward linear search (structural, so
the kernel can evaluate it; the concrete inputs below are tiny). -/
def natSqrtDown : ℕ → ℕ → ℕ
  | 0, _ => 0
  | k + 1, n => if (k + 1) * (k + 1) ≤ n then k + 1 else natSqrtDown k n

/-- Exact square root test used by `sqrtQ`: a candidate root from the
numerator and denominator floor roots, validated by squaring. -/
def ratExactSqrt (q : ℚ) : Option ℚ :=
  let r : ℚ := (natSqrtDown q.num.toNat q.num.toNat : ℚ) / (natSqrtDown q.den q.den : ℚ)
  if r * r = q then some r else none

/-- Models `Math.sqrt` on the nonnegative rationals: exact whenever the exact
square root is rational; otherwise the true result is irrational and hence not
representable in the `ℚ` model, and the (positive) argument itself is returned
as a stand-in.  No theorem in this development depends on the stand-in value:
all concrete inputs used below have rational lengths. -/
def sqrtQ (q : ℚ) : ℚ :=
  match ratExactSqrt q with
  | some r => r
  | none => q

/-- The ECMAScript whitespace test that `String.prototype.trim` strips:
WhiteSpace — tab `U+0009`, vertical tab `U+000B`, form feed `U+000C`,
space `U+0020`, no-break space `U+00A0`, zero-width no-break space
`U+FEFF`, and the Unicode Space_Separator category (`U+1680`,
`U+2000`–`U+200A`, `U+202F`, `U+205F`, `U+3000`) — together with
LineTerminator — line feed `U+000A`, carriage return `U+000D`, line
separator `U+2028`, paragraph separator `U+2029`. -/
def jsIsWhitespace (c : Char) : Bool :=
  c.toNat = 0x09 ∨ c.toNat = 0x0A ∨ c.toNat = 0x0B ∨ c.toNat = 0x0C ∨
  c.toNat = 0x0D ∨ c.toNat = 0x20 ∨ c.toNat = 0xA0 ∨ c.toNat = 0x1680 ∨
  (0x2000 ≤ c.toNat ∧ c.toNat ≤ 0x200A) ∨ c.toNat = 0x2028 ∨
  c.toNat = 0x2029 ∨ c.toNat = 0x202F ∨ c.toNat = 0x205F ∨
  c.toNat = 0x3000 ∨ c.toNat = 0xFEFF

/-- `String.prototype.trim`, modelled structurally on the character list
(the built-in `String.trim` iterates over byte positions, which the kernel
cannot evaluate): strip leading and trailing ECMAScript whitespace. -/
def jsTrim (s : String) : String :=
  ⟨((s.data.dropWhile jsIsWhitespace).reverse.dropWhile jsIsWhitespace).reverse⟩

/-- `Vector2` from `src/math.ts` (the fields `x`, `y`). -/
structure Vector2 where
  x : ℚ
  y : ℚ
deriving DecidableEq, Repr

namespace Vector2

/-- `Vector2.plus`. -/
def plus (v other : Vector2) : Vector2 := ⟨v.x + other.x, v.y + other.y⟩

/-- `Vector2.minus`. -/
def minus (v other : Vector2) : Vector2 := ⟨v.x - other.x, v.y - other.y⟩

/-- `Vector2.dot`. -/
def dot (v other : Vector2) : ℚ := v.x * other.x + v.y * other.y

/-- `Vector2.cross` (z-component of the 2D cross product). -/
def cross (v other : Vector2) : ℚ := v.x * other.y - v.y * other.x

/-- `Vector2.len`: `Math.sqrt(x*x + y*y)`. -/
def len (v : Vector2) : ℚ := sqrtQ (v.x * v.x + v.y * v.y)

/-- `Vector2.scale`. -/
def scale (v : Vector2) (factor : ℚ) : Vector2 := ⟨v.x * factor, v.y * factor⟩

/-- `Vector2.withMag`: `factor = mag / len`; in exact arithmetic the
`isNaN(factor)` test of the source is true exactly when the division is
`0 / 0`, i.e. when both the length and the requested magnitude are zero. -/
def withMag (v : Vector2) (mag : ℚ) : Vector2 :=
  let factor := mag / v.len
  if v.len = 0 ∧ mag = 0 then ⟨0, 0⟩ else v.scale factor

/-- `Vector2.perp`. -/
def perp (v : Vector2) : Vector2 := ⟨-v.y, v.x⟩

end Vector2

/-- Per-axis support flags of a joint. -/
structure SupportFlags where
  x : Bool
  y : Bool
deriving DecidableEq, Repr

/-- `Joint` from `src/math.ts`.  Ids are integers (data-model §3). -/
structure Joint where
  id : ℤ
  name : String
  pos : Vector2
  load : Vector2
  support : SupportFlags
deriving DecidableEq, Repr

/-- `Member` from `src/math.ts`: the pair of referenced joint ids. -/
structure Member where
  id : ℤ
  jointIds : ℤ × ℤ
deriving DecidableEq, Repr

/-- `State` from `src/math.ts`. -/
structure State where
  joints : List Joint
  members : List Member
deriving DecidableEq, Repr

/-- `Problem` from `src/math.ts`.  The `fix` closure `() => State` is pure;
it is modelled by the `State` value it returns. -/
structure Problem where
  message : String
  critical : Bool
  fix : Option State
deriving DecidableEq, Repr

/-- `Solution` from `src/math.ts`: the optional maps are modelled as
insertion-ordered association lists. -/
structure Solution where
  problems : List Problem
  orf : Option (List (ℤ × Vector2))
  memberForces : Option (List (ℤ × ℚ))
deriving DecidableEq, Repr

/-! ## JavaScript `Map` as an insertion-ordered association list -/

variable {K V : Type}

/-- `Map.get` / `Map.has`: first (and only, since `mapSet` keeps keys unique)
binding of the key. -/
def mapGet? [DecidableEq K] (m : List (K × V)) (k : K) : Option V :=
  (m.find? (fun kv => kv.1 = k)).map (fun kv => kv.2)

/-- `Map.set`: overwrite in place (the JS `Map` keeps the original insertion
position of an overwritten key) or append a fresh binding. -/
def mapSet [DecidableEq K] (m : List (K × V)) (k : K) (v : V) : List (K × V) :=
  if (m.find? (fun kv => kv.1 = k)).isSome then
    m.map (fun kv => if kv.1 = k then (k, v) else kv)
  else
    m ++ [(k, v)]

/-- Axis tag distinguishing the `"_x"` / `"_y"` variable-name suffixes. -/
inductive Axis where
  | x
  | y
deriving DecidableEq, Repr

/-- Component access `vector[axis]` used by `solveMembers`. -/
def Vector2.comp (v : Vector2) : Axis → ℚ
  | Axis.x => v.x
  | Axis.y => v.y

/-- Component update `vec[axis] = value` used when unpacking the
reaction-force solution. -/
def Vector2.setComp (v : Vector2) : Axis → ℚ → Vector2
  | Axis.x, q => ⟨q, v.y⟩
  | Axis.y, q => ⟨v.x, q⟩

/-- `support[axis]` as a flag lookup. -/
def SupportFlags.comp (s : SupportFlags) : Axis → Bool
  | Axis.x => s.x
  | Axis.y => s.y

end Statics

namespace Statics

/-! ## The generic linear-equation solver (`solveSystemOfEquations`)

The source expresses an equation as a `Map` from variable name to
coefficient plus a constant, meaning `Σ coeff·variable + constant = 0`,
builds the coefficient matrix `A` (rows = equations, columns = the distinct
variable names in first-seen order, missing term = 0) and `B = −constants`,
and solves `A·X = B` through the external `ml-matrix` inversion routine.

That external routine is not part of this repository.  Modelled from the
spec (§4.3): the solver either returns the mapping from variable names to
the *unique exact solution* of `A·X = B`, or signals "no unique solution"
(`null`) when the system has no solution or more than one (in particular
when the matrix is singular).  The model computes a candidate by exact
Gauss–Jordan elimination over `ℚ` and then re-verifies `A·X = B`, so that a
`some` answer provably satisfies every equation. -/

/-- An `Equation`: insertion-ordered term map plus constant. -/
structure Equation (K : Type) where
  terms : List (K × ℚ)
  constant : ℚ

/-- First-seen-order deduplication: models `Array.from(new Set(xs))`. -/
def dedupFirst [DecidableEq K] (xs : List K) : List K :=
  xs.foldl (fun acc x => if x ∈ acc then acc else acc ++ [x]) []

/-- Dot product of a matrix row with the solution vector. -/
def dotL (r x : List ℚ) : ℚ := (List.zipWith (· * ·) r x).sum

/-- One Gauss–Jordan step helper: reduce a row against the normalized pivot
row (pivot entry 1) and drop its leading entry. -/
def reduceRow (pivot : List ℚ) (r : List ℚ) : List ℚ :=
  let h := r.headD 0
  (List.zipWith (fun a p => a - h * p) r pivot).drop 1

/-- Exact Gauss–Jordan elimination on the augmented rows (`n` unknowns, each
row of length `n + 1`).  Returns the solution when it is unique: a column
with no usable pivot (a free unknown) or an inconsistent remainder yields
`none`. -/
def gaussAux : (n : ℕ) → List (List ℚ) → Option (List ℚ)
  | 0, rows =>
      -- no unknowns left: consistent iff every remaining augmented entry is 0
      if rows.all (fun r => r.all (fun a => a = 0)) then some [] else none
  | n + 1, rows =>
      match rows.find? (fun r => r.headD 0 ≠ 0) with
      | none => none -- free unknown: no unique solution
      | some piv =>
          let p := piv.headD 0
          let pivot := piv.map (fun a => a / p)
          let rest := (rows.filter (fun r => r ≠ piv)).map (reduceRow pivot)
          match gaussAux n rest with
          | none => none
          | some xs =>
              -- pivot row reads x₀ + Σ aᵢ·xᵢ = c with c the last entry
              let tail := pivot.drop 1
              let c := tail.getLast? |>.getD 0
              let x0 := c - dotL (tail.dropLast) xs
              some (x0 :: xs)

/-- Candidate solution of `A·X = B` (augmented elimination). -/
def gaussSolve (a : List (List ℚ)) (b : List ℚ) (n : ℕ) : Option (List ℚ) :=
  gaussAux n (List.zipWith (fun r c => r ++ [c]) a b)

/-- `solveSystemOfEquations` from `src/math.ts`, over an abstract key type
(see the header comment on variable names).  The external inversion step is
modelled per spec §4.3 (unique exact solution or `null`); the final guard
re-verifies the candidate, so `some` provably solves every equation. -/
def solveSystemOfEquations [DecidableEq K] (equations : List (Equation K)) :
    Option (List (K × ℚ)) :=
  let variableNames := dedupFirst (equations.flatMap (fun e => e.terms.map Prod.fst))
  -- A·X = B
  let a := equations.map (fun e =>
    variableNames.map (fun v => (mapGet? e.terms v).getD 0))
  let b := equations.map (fun e => -e.constant)
  match gaussSolve a b variableNames.length with
  | none => none
  | some x =>
      if x.length = variableNames.length ∧ a.map (fun r => dotL r x) = b then
        some (variableNames.zip x)
      else none

/-- The value of one equation's left-hand side `Σ coeff·variable + constant`
under an assignment (missing variables read as 0). -/
def evalEquation [DecidableEq K] (eq : Equation K) (sol : List (K × ℚ)) : ℚ :=
  (eq.terms.map (fun kc => kc.2 * (mapGet? sol kc.1).getD 0)).sum + eq.constant

end Statics

namespace Statics

/-! ## The validator (`isSane`)

The source pushes problems into one array in stage order (names, overlaps,
degenerate members, duplicate members); each stage is a separate loop, so
the array is the concatenation of the per-stage problem lists.  The
degenerate- and duplicate-member stages dereference
`state.joints.find(...)` results without a check, which throws a
`TypeError` when a referenced joint id does not exist; this is modelled by
`Except.error`. -/

/-- Stage 2, name checks: empty trimmed names and reused names, tracking the
set of names already seen (empty names are never added to the seen set). -/
def nameProblemsAux : List Joint → List String → List Problem
  | [], _ => []
  | joint :: rest, seen =>
      if jsTrim joint.name = "" then
        ⟨"Joint name missing", false, none⟩ :: nameProblemsAux rest seen
      else if joint.name ∈ seen then
        ⟨s!"Multiple joint exist with name {joint.name}", false, none⟩ :: nameProblemsAux rest seen
      else
        nameProblemsAux rest (joint.name :: seen)

/-- Stage 2 entry point. -/
def nameProblems (joints : List Joint) : List Problem := nameProblemsAux joints []

/-- Stage 3, overlap check.  The source keys joints by the string
`pos.x + '_' + pos.y`; number printing is injective and contains no `'_'`,
so two keys are equal exactly when the coordinate pairs are equal, and the
key is modelled by the pair `(x, y)`. -/
def overlapProblemsAux : List Joint → List ((ℚ × ℚ) × Joint) → List Problem
  | [], _ => []
  | joint :: rest, reusedPoints =>
      match mapGet? reusedPoints (joint.pos.x, joint.pos.y) with
      | some first =>
          ⟨s!"Joints {first.name} and {joint.name} overlap", true, none⟩ ::
            overlapProblemsAux rest reusedPoints
      | none =>
          overlapProblemsAux rest (mapSet reusedPoints (joint.pos.x, joint.pos.y) joint)

/-- Stage 3 entry point. -/
def overlapProblems (joints : List Joint) : List Problem := overlapProblemsAux joints []

/-- Stage 4, degenerate members (both endpoint ids equal).  The `fix`
closure returns the state with that member (by id) filtered out and the
joint list shared; the closure is modelled by its result. -/
def degenerateProblemsAux (state : State) : List Member → Except String (List Problem)
  | [] => .ok []
  | member :: rest =>
      if member.jointIds.1 = member.jointIds.2 then
        match state.joints.find? (fun j => j.id = member.jointIds.1) with
        | none => .error "TypeError: cannot read name of undefined"
        | some joint =>
            (degenerateProblemsAux state rest).map
              (⟨s!"Invalid member exists on joint {joint.name}", true,
                some ⟨state.joints, state.members.filter (fun m => m.id ≠ member.id)⟩⟩ :: ·)
      else degenerateProblemsAux state rest

/-- Stage 4 entry point. -/
def degenerateProblems (state : State) : Except String (List Problem) :=
  degenerateProblemsAux state state.members

/-- The duplicate-member key: the source sorts the two printed ids and joins
them with `'_'`, an order-independent key; two keys coincide exactly when
the id pairs coincide up to order, so the key is modelled by the pair
sorted numerically. -/
def sortedPairKey (ids : ℤ × ℤ) : ℤ × ℤ :=
  if ids.1 ≤ ids.2 then ids else (ids.2, ids.1)

/-- Stage 5, duplicate members (same unordered endpoint-id pair seen
twice). -/
def duplicateProblemsAux (state : State) : List Member → List (ℤ × ℤ) → Except String (List Problem)
  | [], _ => .ok []
  | member :: rest, seen =>
      if sortedPairKey member.jointIds ∈ seen then
        match state.joints.find? (fun j => j.id = member.jointIds.1),
              state.joints.find? (fun j => j.id = member.jointIds.2) with
        | some j1, some j2 =>
            (duplicateProblemsAux state rest seen).map
              (⟨s!"Duplicate members exist between joints {j1.name} and {j2.name}", true,
                some ⟨state.joints, state.members.filter (fun m => m.id ≠ member.id)⟩⟩ :: ·)
        | _, _ => .error "TypeError: cannot read name of undefined"
      else duplicateProblemsAux state rest (sortedPairKey member.jointIds :: seen)

/-- Stage 5 entry point. -/
def duplicateProblems (state : State) : Except String (List Problem) :=
  duplicateProblemsAux state state.members []

/-- The support-flag count `R` of the determinacy heuristic. -/
def supportCount (state : State) : ℕ :=
  ((state.joints.flatMap (fun joint => [joint.support.x, joint.support.y])).filter
    (fun b => b)).length

/-- Stage 7, the static-determinacy heuristic `2·J = M + R`. -/
def determinacyProblems (state : State) : List Problem :=
  let J := state.joints.length
  let M := state.members.length
  let R := supportCount state
  if 2 * J ≠ M + R then
    [⟨s!"Structure is not statically determinate (J={J}, M={M}, R={R})", true, none⟩]
  else []

/-- `isSane` from `src/math.ts`. -/
def isSane (state : State) : Except String (List Problem) :=
  if state.members.length = 0 then
    .ok [⟨"No structural members exist", true, none⟩]
  else do
    let degen ← degenerateProblems state
    let dup ← duplicateProblems state
    let problems := nameProblems state.joints ++ overlapProblems state.joints ++ degen ++ dup
    if problems.length > 0 then
      return problems
    else
      return problems ++ determinacyProblems state

/-! ## The reaction-force stage (`solveORF`) -/

/-- The key type of reaction unknowns, modelling the names
`"<jointId>_x"` / `"<jointId>_y"`. -/
abbrev OrfKey := ℤ × Axis

/-- The loop body of `solveORF`'s single pass over the joints, named so the
accumulation can be reasoned about. -/
def orfStep (acc : Equation OrfKey × Equation OrfKey × Equation OrfKey) (joint : Joint) :
    Equation OrfKey × Equation OrfKey × Equation OrfKey :=
  let (moment, forcesX, forcesY) := acc
  let moment := { moment with constant := moment.constant + joint.pos.cross joint.load }
  let forcesX := { forcesX with constant := forcesX.constant + joint.load.x }
  let forcesY := { forcesY with constant := forcesY.constant + joint.load.y }
  let (moment, forcesX) :=
    if joint.support.x then
      ({ moment with terms := mapSet moment.terms (joint.id, Axis.x) (joint.pos.cross ⟨1, 0⟩) },
       { forcesX with terms := mapSet forcesX.terms (joint.id, Axis.x) 1 })
    else (moment, forcesX)
  let (moment, forcesY) :=
    if joint.support.y then
      ({ moment with terms := mapSet moment.terms (joint.id, Axis.y) (joint.pos.cross ⟨0, 1⟩) },
       { forcesY with terms := mapSet forcesY.terms (joint.id, Axis.y) 1 })
    else (moment, forcesY)
  (moment, forcesX, forcesY)

/-- The three global equilibrium equations (moment about the origin, ΣFx,
ΣFy), accumulated over the joints exactly as the single source loop does. -/
def orfEquations (state : State) : Equation OrfKey × Equation OrfKey × Equation OrfKey :=
  state.joints.foldl orfStep (⟨[], 0⟩, ⟨[], 0⟩, ⟨[], 0⟩)

/-- `solveORF` from `src/math.ts`: build the three equations, solve, then
unpack the solved variables into a per-joint vector map that starts at the
zero vector for every joint.  The source mutates `ORF.get(parseInt(id))` in
place; every solved key's id is one of the joint ids (the unknowns were
created from the joints), so the lookup always succeeds, and the update is
modelled as an in-place map update. -/
def solveORF (state : State) : Option (List (ℤ × Vector2)) :=
  let (moment, forcesX, forcesY) := orfEquations state
  match solveSystemOfEquations [moment, forcesX, forcesY] with
  | none => none
  | some solution =>
      let orf0 : List (ℤ × Vector2) :=
        state.joints.foldl (fun orf joint => mapSet orf joint.id ⟨0, 0⟩) []
      some (solution.foldl
        (fun orf kv =>
          orf.map (fun e => if e.1 = kv.1.1 then (e.1, e.2.setComp kv.1.2 kv.2) else e))
        orf0)

/-! ## The member-force stage (`solveMembers`) -/

/-- `jointLUT`: `new Map(state.joints.map(joint => [joint.id, joint]))`. -/
def jointLUT (state : State) : List (ℤ × Joint) :=
  state.joints.foldl (fun m joint => mapSet m joint.id joint) []

/-- The initial per-joint member index, one empty list per joint id. -/
def membersForJointInit (state : State) : List (ℤ × List Member) :=
  state.joints.foldl (fun m joint => mapSet m joint.id []) []

/-- Fill the per-joint member index: each member is pushed onto the list of
both its referenced joint ids; a reference to a missing joint id makes the
source call `.push` on `undefined` (TypeError). -/
def buildMembersForJoint (state : State) : Except String (List (ℤ × List Member)) :=
  state.members.foldlM
    (fun m member =>
      [member.jointIds.1, member.jointIds.2].foldlM
        (fun m jointId =>
          match mapGet? m jointId with
          | none => .error "TypeError: cannot push onto undefined"
          | some lst => .ok (mapSet m jointId (lst ++ [member])))
        m)
    (membersForJointInit state)

/-- `member.jointIds.find(j => j != joint.id)`: the first endpoint id
different from the given joint id, `undefined` (`none`) when both ids equal
it. -/
def findOtherId (ids : ℤ × ℤ) (jid : ℤ) : Option ℤ :=
  if ids.1 ≠ jid then some ids.1 else if ids.2 ≠ jid then some ids.2 else none

/-- The coefficient `solveMembers` computes for one incident member of a
joint on one axis: the axis component of the unit vector from the joint
toward the member's other endpoint, i.e. the source expression
`jointLUT.get(member.jointIds.find(j => j != joint.id)).pos.minus(joint.pos).withMag(1)[axis]`;
the two undefined-lookup cases (never reached when the data-model
invariants hold) read as `0` here and are raised as `Except.error` by
`memberEqnTerms` below. -/
def memberDirComp (state : State) (joint : Joint) (member : Member) (axis : Axis) : ℚ :=
  match findOtherId member.jointIds joint.id with
  | none => 0
  | some otherId =>
      match mapGet? (jointLUT state) otherId with
      | none => 0
      | some other => ((other.pos.minus joint.pos).withMag 1).comp axis

/-- The inner term-building loop of `solveMembers` for one joint and axis:
each incident member contributes a term keyed by its id whose coefficient
is the axis component of the unit vector from this joint toward the
member's other endpoint; the unchecked dereferences of the source (the
`find` result and `jointLUT.get`) are modelled by `Except.error`. -/
def memberEqnTerms (state : State) (joint : Joint) (axis : Axis) :
    List Member → List (ℤ × ℚ) → Except String (List (ℤ × ℚ))
  | [], terms => Except.ok terms
  | member :: rest, terms =>
      match findOtherId member.jointIds joint.id with
      | none => Except.error "TypeError: cannot read pos of undefined"
      | some otherId =>
          match mapGet? (jointLUT state) otherId with
          | none => Except.error "TypeError: cannot read pos of undefined"
          | some other =>
              memberEqnTerms state joint axis rest
                (mapSet terms member.id (((other.pos.minus joint.pos).withMag 1).comp axis))

/-- One equation of the member stage (one joint, one axis): the constant
is the load component plus the reaction component (when present in the
reaction map); the terms come from `memberEqnTerms` over the joint's entry
of the per-joint member index (`Except.error` when that entry is missing,
mirroring the source's unchecked `membersForJoint.get(joint.id)`). -/
def memberEqn (state : State) (orf : List (ℤ × Vector2))
    (mfj : List (ℤ × List Member)) (joint : Joint) (axis : Axis) :
    Except String (Equation ℤ) :=
  match mapGet? mfj joint.id with
  | none => Except.error "TypeError: membersForJoint.get(joint.id) is undefined"
  | some lst =>
      match memberEqnTerms state joint axis lst [] with
      | .error e => .error e
      | .ok terms =>
          .ok { terms := terms,
                constant := joint.load.comp axis +
                  (match mapGet? orf joint.id with
                   | some v => v.comp axis
                   | none => 0) }

/-- The equation-building loop of `solveMembers`: two equations per joint
(axes `x`, `y`), appended in joint order. -/
def buildMemberEquations (state : State) (orf : List (ℤ × Vector2)) :
    Except String (List (Equation ℤ)) :=
  match buildMembersForJoint state with
  | .error e => .error e
  | .ok mfj =>
      state.joints.foldlM
        (fun eqs joint =>
          [Axis.x, Axis.y].foldlM
            (fun eqs axis =>
              match memberEqn state orf mfj joint axis with
              | .error e => .error e
              | .ok eq => .ok (eqs ++ [eq]))
            eqs)
        []

/-- `solveMembers` from `src/math.ts`.  The source computes
`new Map([...solveSystemOfEquations(equations).entries()].map(([id, val]) =>
[parseInt(id), val]))` with **no null check**: when the solver signals "no
unique solution" (`null`), `.entries()` dereferences `null` and throws a
`TypeError`, so the declared `| null` result is never produced by a normal
return.  In the model the solved keys are already ids (`parseInt` of the
printed id is the identity, see the header). -/
def solveMembers (state : State) (orf : List (ℤ × Vector2)) :
    Except String (Option (List (ℤ × ℚ))) :=
  match buildMemberEquations state orf with
  | .error e => .error e
  | .ok equations =>
      match solveSystemOfEquations equations with
      | none => Except.error "TypeError: null has no entries()"
      | some solution => Except.ok (some solution)

/-- `solve` from `src/math.ts`: validation, then reactions, then member
forces, short-circuiting with the recorded problems.  The
`memberForces === null` branch of the source is mirrored even though
`solveMembers` can never return `null` normally (it throws instead). -/
def solve (state : State) : Except String Solution :=
  match isSane state with
  | .error e => .error e
  | .ok problems =>
    if (problems.find? (fun p => p.critical)).isSome then
      .ok { problems := problems, orf := none, memberForces := none }
    else
      match solveORF state with
      | none =>
          let orfFail : Problem :=
            ⟨"Structure is not statically determinate (could not solve for outside reaction forces)", true, none⟩
          .ok { problems := problems ++ [orfFail], orf := none, memberForces := none }
      | some orf =>
          match solveMembers state orf with
          | .error e => .error e
          | .ok none =>
              let memberFail : Problem :=
                ⟨"Structure is not statically determinate (could not solve for member forces)", true, none⟩
              .ok { problems := problems ++ [memberFail], orf := some orf, memberForces := none }
          | .ok (some memberForces) =>
              .ok { problems := problems, orf := some orf, memberForces := some memberForces }

end Statics

namespace Parse

/-! ## The structure parser (`parseState`, richest source variant)

That variant re-declares the data model; joint and member ids there are
plain numbers (`ℚ` in the model).  `JSON.parse` is an external builtin: its
failure on a non-JSON string is caught by the source's `try`/`catch`
(returning `null`), so every further behaviour of `parseState` is a
function of the parsed value; the model therefore takes the parsed
JavaScript value as input.  Destructuring (`const {a} = v`) throws a
`TypeError` exactly when `v` is `null` or `undefined`; on any other
non-object it yields `undefined` fields. -/

/-- A parsed JavaScript value (the possible results of `JSON.parse`),
plus `undefined` for missing properties. -/
inductive JSValue where
  | undefined
  | null
  | bool (b : Bool)
  | num (q : ℚ)
  | str (s : String)
  | arr (elems : List JSValue)
  | obj (fields : List (String × JSValue))

/-- `typeof` (note `typeof null == "object"`). -/
def jsTypeof : JSValue → String
  | .undefined => "undefined"
  | .null => "object"
  | .bool _ => "boolean"
  | .num _ => "number"
  | .str _ => "string"
  | .arr _ => "object"
  | .obj _ => "object"

/-- Property read as performed by destructuring: throws on `null` and
`undefined`, reads own fields of objects, and yields `undefined` on other
values. -/
def jsGet : JSValue → String → Except String JSValue
  | .undefined, _ => .error "TypeError: cannot destructure null or undefined"
  | .null, _ => .error "TypeError: cannot destructure null or undefined"
  | .obj fields, name => .ok ((Statics.mapGet? fields name).getD .undefined)
  | _, _ => .ok .undefined

/-- `Joint` as declared in the parser's source file (numeric id). -/
structure Joint where
  id : ℚ
  name : String
  pos : Statics.Vector2
  load : Statics.Vector2
  support : Statics.SupportFlags
deriving DecidableEq, Repr

/-- `Member` as declared in the parser's source file (numeric ids). -/
structure Member where
  id : ℚ
  jointIds : ℚ × ℚ
deriving DecidableEq, Repr

/-- `State` as declared in the parser's source file. -/
structure State where
  joints : List Joint
  members : List Member
deriving DecidableEq, Repr

/-- `parseVector2`: destructures `x`/`y` (throws on `null`/`undefined`) and
requires both numeric. -/
def parseVector2 (jointObject : JSValue) : Except String (Option Statics.Vector2) := do
  let x ← jsGet jointObject "x"
  let y ← jsGet jointObject "y"
  match x, y with
  | .num a, .num b => return some ⟨a, b⟩
  | _, _ => return none

/-- `parseJoint`: destructures the five fields, parses the two vectors
*before* any type test (so a missing `pos`/`load` throws), then checks the
field types; `typeof null == "object"`, so a `null` support record passes
the `typeof` test and throws on the following destructuring. -/
def parseJoint (jointObject : JSValue) : Except String (Option Joint) := do
  let id ← jsGet jointObject "id"
  let name ← jsGet jointObject "name"
  let pos ← jsGet jointObject "pos"
  let load ← jsGet jointObject "load"
  let support ← jsGet jointObject "support"
  let posVec ← parseVector2 pos
  let loadVec ← parseVector2 load
  match id, name, posVec, loadVec with
  | .num idNum, .str nameStr, some p, some l =>
      if jsTypeof support ≠ "object" then
        return none
      else do
        let sx ← jsGet support "x"
        let sy ← jsGet support "y"
        match sx, sy with
        | .bool bx, .bool b2 => return some ⟨idNum, nameStr, p, l, ⟨bx, b2⟩⟩
        | _, _ => return none
  | _, _, _, _ => return none

/-- `parseMember`: numeric `id` and a 2-element numeric `jointIds` array. -/
def parseMember (jointObject : JSValue) : Except String (Option Member) := do
  let id ← jsGet jointObject "id"
  let jointIds ← jsGet jointObject "jointIds"
  match id, jointIds with
  | .num idNum, .arr [.num jointA, .num jointB] => return some ⟨idNum, (jointA, jointB)⟩
  | _, _ => return none

/-- The joint-id uniqueness loop of `parseState`: returns the set of seen
ids, or `none` when an id repeats. -/
def collectJointIds : List Joint → List ℚ → Option (List ℚ)
  | [], seen => some seen
  | joint :: rest, seen =>
      if joint.id ∈ seen then none else collectJointIds rest (joint.id :: seen)

/-- The member loop of `parseState`: rejects a member id colliding with a
joint id or an earlier member id, and a reference to an absent joint id. -/
def checkMembers : List Member → List ℚ → List ℚ → Option Unit
  | [], _, _ => some ()
  | member :: rest, jointIds, memberIds =>
      if member.id ∈ jointIds ∨ member.id ∈ memberIds ∨
          ¬(member.jointIds.1 ∈ jointIds ∧ member.jointIds.2 ∈ jointIds) then
        none
      else
        checkMembers rest jointIds (member.id :: memberIds)

/-- `parseState` on the value produced by `JSON.parse` (see the section
header).  Top-level destructuring throws on a `null`/`undefined` parse
result; non-array `joints`/`members` yield `null`; element parsing runs on
*every* element (any element throw propagates); a `null` element result,
a repeated joint id, a member id collision or a dangling member reference
yield `null`. -/
def parseState (stateObject : JSValue) : Except String (Option State) := do
  let jointsObject ← jsGet stateObject "joints"
  let membersObject ← jsGet stateObject "members"
  match jointsObject, membersObject with
  | .arr jointVals, .arr memberVals => do
      let jointOpts ← jointVals.mapM parseJoint
      let memberOpts ← memberVals.mapM parseMember
      if none ∈ jointOpts ∨ none ∈ memberOpts then
        return none
      else
        let joints := jointOpts.filterMap id
        let members := memberOpts.filterMap id
        match collectJointIds joints [] with
        | none => return none
        | some jointIds =>
            match checkMembers members jointIds [] with
            | none => return none
            | some _ => return some ⟨joints, members⟩
  | _, _ => return none

end Parse

namespace JSFloat

/-! ## IEEE-style scalar model for the `withMag` NaN claim

`withMag` divides by the vector length; on a zero-length vector this is a
division by zero, whose IEEE result (`NaN` or `±Infinity`) the rational
model of the engine cannot express.  This small scalar model captures the
finite/`NaN`/`±Infinity` distinctions (signed zero is irrelevant here:
lengths are produced by `Math.sqrt`, which returns `+0`). -/

/-- A JavaScript number: finite (exact) value, `NaN`, or `±Infinity`. -/
inductive JSNum where
  | fin (q : ℚ)
  | nan
  | inf
  | ninf
deriving DecidableEq, Repr

/-- IEEE multiplication (`0 * ±Infinity = NaN`). -/
def mul : JSNum → JSNum → JSNum
  | .fin a, .fin b => .fin (a * b)
  | .fin a, .inf => if a = 0 then .nan else if 0 < a then .inf else .ninf
  | .fin a, .ninf => if a = 0 then .nan else if 0 < a then .ninf else .inf
  | .inf, .fin b => if b = 0 then .nan else if 0 < b then .inf else .ninf
  | .ninf, .fin b => if b = 0 then .nan else if 0 < b then .ninf else .inf
  | .inf, .inf => .inf
  | .inf, .ninf => .ninf
  | .ninf, .inf => .ninf
  | .ninf, .ninf => .inf
  | _, _ => .nan

/-- IEEE addition. -/
def add : JSNum → JSNum → JSNum
  | .fin a, .fin b => .fin (a + b)
  | .fin _, .inf => .inf
  | .inf, .fin _ => .inf
  | .fin _, .ninf => .ninf
  | .ninf, .fin _ => .ninf
  | .inf, .inf => .inf
  | .ninf, .ninf => .ninf
  | _, _ => .nan

/-- IEEE division (`0/0 = NaN`, `q/0 = ±Infinity` for `q ≠ 0`). -/
def div : JSNum → JSNum → JSNum
  | .fin a, .fin b =>
      if b = 0 then (if a = 0 then .nan else if 0 < a then .inf else .ninf)
      else .fin (a / b)
  | .fin _, .inf => .fin 0
  | .fin _, .ninf => .fin 0
  | .inf, .fin b => if 0 ≤ b then .inf else .ninf
  | .ninf, .fin b => if 0 ≤ b then .ninf else .inf
  | _, _ => .nan

/-- `Math.sqrt` (negative arguments give `NaN`); finite values follow the
exact-rational model `sqrtQ`. -/
def sqrt : JSNum → JSNum
  | .fin q => if q < 0 then .nan else .fin (Statics.sqrtQ q)
  | .inf => .inf
  | _ => .nan

/-- `isNaN`. -/
def isNaN : JSNum → Bool
  | .nan => true
  | _ => false

/-- A `Vector2` with IEEE-style components. -/
structure JSVec where
  x : JSNum
  y : JSNum
deriving DecidableEq, Repr

/-- `Vector2.len` under the IEEE-style model. -/
def len (v : JSVec) : JSNum := sqrt (add (mul v.x v.x) (mul v.y v.y))

/-- `Vector2.scale` under the IEEE-style model. -/
def scale (v : JSVec) (factor : JSNum) : JSVec := ⟨mul v.x factor, mul v.y factor⟩

/-- `Vector2.withMag` under the IEEE-style model, exactly as written in the
source: `factor = mag / len`; return the zero vector if `isNaN(factor)`,
else scale by `factor`. -/
def withMag (v : JSVec) (mag : JSNum) : JSVec :=
  let factor := div mag (len v)
  if isNaN factor then ⟨.fin 0, .fin 0⟩ else scale v factor

end JSFloat

namespace Statics

/-! ## Concrete structures used as inputs below -/

/-- The concrete truss of the spec's test scenario, with the apex moved to
make all member lengths rational: `A(0,0)` pinned, `B(8,0)` roller on `y`,
`C(4,3)` loaded `(0,-10)`; members `A-B`, `A-C`, `B-C` (3-4-5 triangles). -/
def triangleState : State :=
  { joints :=
      [ ⟨1, "A", ⟨0, 0⟩, ⟨0, 0⟩, ⟨true, true⟩⟩,
        ⟨2, "B", ⟨8, 0⟩, ⟨0, 0⟩, ⟨false, true⟩⟩,
        ⟨3, "C", ⟨4, 3⟩, ⟨0, -10⟩, ⟨false, false⟩⟩ ],
    members := [⟨10, (1, 2)⟩, ⟨11, (1, 3)⟩, ⟨12, (2, 3)⟩] }

/-- Reaction forces of `triangleState` (computed by `solveORF`). -/
def triangleOrf : List (ℤ × Vector2) := [(1, ⟨0, 5⟩), (2, ⟨0, 5⟩), (3, ⟨0, 0⟩)]

/-- Member forces of `triangleState` (computed by `solveMembers`). -/
def triangleForces : List (ℤ × ℚ) := [(10, 20/3), (11, -25/3), (12, -25/3)]

/-- Three collinear joints `A(0,0)` (pin), `B(1,0)`, `C(2,0)` (roller on
`y`) with members `A-B`, `B-C` and `A-C`: it passes every validation check
(`J=3`, `M=3`, `R=3`, `2J = M+R`) and its reaction system is solvable, but
the member-force system is rank-deficient (all members lie on one line), so
the member-stage solver signals "no unique solution". -/
def collinearState : State :=
  { joints :=
      [ ⟨1, "A", ⟨0, 0⟩, ⟨0, 0⟩, ⟨true, true⟩⟩,
        ⟨2, "B", ⟨1, 0⟩, ⟨0, 0⟩, ⟨false, false⟩⟩,
        ⟨3, "C", ⟨2, 0⟩, ⟨0, 0⟩, ⟨false, true⟩⟩ ],
    members := [⟨10, (1, 2)⟩, ⟨11, (2, 3)⟩, ⟨12, (1, 3)⟩] }

/-- A structure with no members at all. -/
def emptyMembersState : State := ⟨[], []⟩

/-- One joint and one degenerate member (both endpoints joint 1). -/
def degMemberState : State :=
  ⟨[⟨1, "A", ⟨0, 0⟩, ⟨0, 0⟩, ⟨true, true⟩⟩], [⟨5, (1, 1)⟩]⟩

end Statics

namespace Parse

/-- A serialized structure (the `JSON.parse` image of well-formed JSON):
one joint with id 1, and one member whose `jointIds` are `[1, 1]` — both
references exist, all ids are unique, but the two references coincide. -/
def equalRefsValue : JSValue :=
  .obj
    [ ("joints", .arr
        [ .obj
            [ ("id", .num 1), ("name", .str "A"),
              ("pos", .obj [("x", .num 0), ("y", .num 0)]),
              ("load", .obj [("x", .num 0), ("y", .num 0)]),
              ("support", .obj [("x", .bool true), ("y", .bool true)]) ] ]),
      ("members", .arr
        [ .obj [("id", .num 2), ("jointIds", .arr [.num 1, .num 1])] ]) ]

/-- The structure `parseState` produces from `equalRefsValue`. -/
def equalRefsState : State :=
  ⟨[⟨1, "A", ⟨0, 0⟩, ⟨0, 0⟩, ⟨true, true⟩⟩], [⟨2, (1, 1)⟩]⟩

end Parse

namespace Statics

/-! ## Association-list lemmas -/

variable {K V : Type} [DecidableEq K]

theorem mapGet?_cons (kv : K × V) (m : List (K × V)) (k : K) :
    mapGet? (kv :: m) k = if kv.1 = k then some kv.2 else mapGet? m k := by
  by_cases h : kv.1 = k
  · rw [mapGet?, List.find?_cons_of_pos]
    · simp [h]
    · simp [h]
  · rw [mapGet?, List.find?_cons_of_neg]
    · simp [mapGet?, h]
    · simp [h]

theorem mapGet?_append (m₁ m₂ : List (K × V)) (k : K) :
    mapGet? (m₁ ++ m₂) k = ((mapGet? m₁ k).or (mapGet? m₂ k)) := by
  induction m₁ with
  | nil => simp [mapGet?]
  | cons kv m ih =>
      rw [List.cons_append, mapGet?_cons, mapGet?_cons]
      by_cases h : kv.1 = k <;> simp [h, ih]

/-- In a map with no duplicate keys, membership determines the lookup. -/
theorem mapGet?_eq_of_mem {m : List (K × V)} (hnd : (m.map Prod.fst).Nodup)
    {kv : K × V} (hm : kv ∈ m) : mapGet? m kv.1 = some kv.2 := by
  induction m with
  | nil => cases hm
  | cons hd tl ih =>
      simp only [List.map_cons, List.nodup_cons] at hnd
      rcases List.mem_cons.mp hm with h | h
      · subst h; simp [mapGet?_cons]
      · rw [mapGet?_cons]
        have hne : hd.1 ≠ kv.1 := by
          intro he
          exact hnd.1 (he ▸ List.mem_map_of_mem Prod.fst h)
        simp only [hne, if_false]
        exact ih hnd.2 h

theorem mapGet?_eq_none_of_not_mem {m : List (K × V)} {k : K}
    (h : k ∉ m.map Prod.fst) : mapGet? m k = none := by
  induction m with
  | nil => rfl
  | cons hd tl ih =>
      simp only [List.map_cons, List.mem_cons] at h
      push_neg at h
      rw [mapGet?_cons]
      have : hd.1 ≠ k := fun he => h.1 he.symm
      simp only [this, if_false]
      exact ih h.2

theorem mapGet?_isSome_iff_mem {m : List (K × V)} {k : K} :
    (mapGet? m k).isSome ↔ k ∈ m.map Prod.fst := by
  induction m with
  | nil => simp [mapGet?]
  | cons hd tl ih =>
      rw [mapGet?_cons, List.map_cons, List.mem_cons]
      by_cases h : hd.1 = k
      · simp [h]
      · have : ¬k = hd.1 := fun he => h he.symm
        simp [h, this, ih]

theorem findKey_isSome_iff (m : List (K × V)) (k : K) :
    (m.find? (fun kv => kv.1 = k)).isSome ↔ k ∈ m.map Prod.fst := by
  have h := @mapGet?_isSome_iff_mem K V _ m k
  rw [mapGet?] at h
  rw [← h]
  cases m.find? (fun kv => kv.1 = k) <;> simp

/-- `mapSet` on a fresh key appends the binding. -/
theorem mapSet_fresh {m : List (K × V)} {k : K} (h : k ∉ m.map Prod.fst) (v : V) :
    mapSet m k v = m ++ [(k, v)] := by
  have hfind : ¬(m.find? (fun kv => kv.1 = k)).isSome := by
    rw [findKey_isSome_iff]; exact h
  simp [mapSet, hfind]

theorem mapGet?_overwrite_self (m : List (K × V)) (k : K) (v : V) :
    mapGet? (m.map (fun kv => if kv.1 = k then (k, v) else kv)) k =
      if k ∈ m.map Prod.fst then some v else none := by
  induction m with
  | nil => simp [mapGet?]
  | cons hd tl ih =>
      by_cases hh : hd.1 = k
      · have hmem : k ∈ hd.1 :: List.map Prod.fst tl := List.mem_cons.mpr (Or.inl hh.symm)
        simp only [List.map_cons, if_pos hh, mapGet?_cons, if_pos hmem]
        simp
      · simp only [List.map_cons, if_neg hh, mapGet?_cons]
        rw [ih]
        have hne : ¬k = hd.1 := fun he => hh he.symm
        have hiff : (k ∈ hd.1 :: List.map Prod.fst tl) ↔ k ∈ List.map Prod.fst tl := by
          constructor
          · intro hk
            rcases List.mem_cons.mp hk with h1 | h1
            · exact absurd h1 hne
            · exact h1
          · exact fun hk => List.mem_cons.mpr (Or.inr hk)
        rw [if_congr hiff rfl rfl]

theorem mapGet?_overwrite_ne (m : List (K × V)) {k k' : K} (h : k' ≠ k) (v : V) :
    mapGet? (m.map (fun kv => if kv.1 = k then (k, v) else kv)) k' = mapGet? m k' := by
  induction m with
  | nil => rfl
  | cons hd tl ih =>
      by_cases hh : hd.1 = k
      · simp only [List.map_cons, if_pos hh, mapGet?_cons]
        rw [ih]
        have h1 : ¬((k, v).1 = k') := fun he => h he.symm
        have h2 : ¬(hd.1 = k') := fun he => h ((hh.symm.trans he).symm)
        rw [if_neg h1, if_neg h2]
      · simp only [List.map_cons, if_neg hh, mapGet?_cons, ih]

theorem mapGet?_mapSet_self (m : List (K × V)) (k : K) (v : V) :
    mapGet? (mapSet m k v) k = some v := by
  by_cases hmem : k ∈ m.map Prod.fst
  · have hfind : (m.find? (fun kv => kv.1 = k)).isSome := (findKey_isSome_iff m k).mpr hmem
    simp only [mapSet, hfind, if_true]
    rw [mapGet?_overwrite_self]
    simp [hmem]
  · rw [mapSet_fresh hmem, mapGet?_append, mapGet?_eq_none_of_not_mem hmem]
    simp [mapGet?_cons]

theorem mapGet?_mapSet_ne (m : List (K × V)) {k k' : K} (h : k' ≠ k) (v : V) :
    mapGet? (mapSet m k v) k' = mapGet? m k' := by
  by_cases hfind : (m.find? (fun kv => kv.1 = k)).isSome
  · simp only [mapSet, hfind, if_true]
    exact mapGet?_overwrite_ne m h v
  · have hmem : k ∉ m.map Prod.fst := fun hm => hfind ((findKey_isSome_iff m k).mpr hm)
    rw [mapSet_fresh hmem, mapGet?_append, mapGet?_cons]
    have : ¬(k = k') := fun he => h he.symm
    simp [this, mapGet?]

theorem mapKeys_mapSet (m : List (K × V)) (k : K) (v : V) :
    (mapSet m k v).map Prod.fst =
      if k ∈ m.map Prod.fst then m.map Prod.fst else m.map Prod.fst ++ [k] := by
  by_cases hmem : k ∈ m.map Prod.fst
  · have hfind : (m.find? (fun kv => kv.1 = k)).isSome := (findKey_isSome_iff m k).mpr hmem
    simp only [mapSet, hfind, if_true, if_pos hmem]
    rw [List.map_map]
    apply List.map_congr_left
    intro kv _
    by_cases hk : kv.1 = k <;> simp [hk]
  · rw [mapSet_fresh hmem]
    simp [hmem]

theorem nodup_keys_mapSet {m : List (K × V)} (hnd : (m.map Prod.fst).Nodup)
    (k : K) (v : V) : ((mapSet m k v).map Prod.fst).Nodup := by
  rw [mapKeys_mapSet]
  by_cases hmem : k ∈ m.map Prod.fst
  · simpa [hmem] using hnd
  · simp only [hmem, if_false]
    simpa [List.nodup_append, hmem] using hnd

end Statics

namespace Statics

variable {K : Type} [DecidableEq K]

/-! ## Properties of the equation solver -/

theorem dedupFirst_go_mem (xs : List K) :
    ∀ (acc : List K) (a : K),
      (a ∈ xs.foldl (fun acc x => if x ∈ acc then acc else acc ++ [x]) acc) ↔
        a ∈ acc ∨ a ∈ xs := by
  induction xs with
  | nil => simp
  | cons hd tl ih =>
      intro acc a
      simp only [List.foldl_cons]
      by_cases h : hd ∈ acc
      · rw [if_pos h, ih]
        constructor
        · rintro (ha | ha)
          · exact Or.inl ha
          · exact Or.inr (List.mem_cons.mpr (Or.inr ha))
        · rintro (ha | ha)
          · exact Or.inl ha
          · rcases List.mem_cons.mp ha with h1 | h1
            · exact Or.inl (h1 ▸ h)
            · exact Or.inr h1
      · rw [if_neg h, ih]
        simp only [List.mem_append, List.mem_singleton, List.mem_cons]
        tauto

theorem dedupFirst_go_nodup (xs : List K) :
    ∀ (acc : List K), acc.Nodup →
      (xs.foldl (fun acc x => if x ∈ acc then acc else acc ++ [x]) acc).Nodup := by
  induction xs with
  | nil => intro acc h; simpa using h
  | cons hd tl ih =>
      intro acc hacc
      simp only [List.foldl_cons]
      by_cases h : hd ∈ acc
      · rw [if_pos h]; exact ih acc hacc
      · rw [if_neg h]
        refine ih _ ?_
        simpa [List.nodup_append, h] using hacc

theorem mem_dedupFirst {xs : List K} {a : K} : a ∈ dedupFirst xs ↔ a ∈ xs := by
  rw [dedupFirst, dedupFirst_go_mem]
  simp

theorem dedupFirst_nodup (xs : List K) : (dedupFirst xs).Nodup :=
  dedupFirst_go_nodup xs [] List.nodup_nil

theorem list_map_eq_map_forall {α β : Type} {l : List α} {f g : α → β}
    (h : l.map f = l.map g) : ∀ a ∈ l, f a = g a := by
  induction l with
  | nil => intro a ha; cases ha
  | cons hd tl ih =>
      simp only [List.map_cons, List.cons.injEq] at h
      intro a ha
      rcases List.mem_cons.mp ha with h1 | h1
      · exact h1 ▸ h.1
      · exact ih h.2 a h1

omit [DecidableEq K] in
theorem dotL_map {c : K → ℚ} : ∀ (vars : List K) (x : List ℚ),
    dotL (vars.map c) x = ((vars.zip x).map (fun p => c p.1 * p.2)).sum := by
  intro vars
  induction vars with
  | nil => intro x; simp [dotL]
  | cons hd tl ih =>
      intro x
      cases x with
      | nil => simp [dotL]
      | cons q qs =>
          show (List.zipWith (· * ·) (List.map c (hd :: tl)) (q :: qs)).sum = _
          rw [List.map_cons, List.zipWith_cons_cons, List.sum_cons]
          rw [List.zip_cons_cons, List.map_cons, List.sum_cons]
          have hih := ih qs
          rw [dotL] at hih
          rw [hih]

theorem sum_map_eq_of_zero_outside {l₁ l₂ : List K} (F : K → ℚ)
    (h₁ : l₁.Nodup) (h₂ : l₂.Nodup) (hsub : ∀ k ∈ l₁, k ∈ l₂)
    (hz : ∀ k ∈ l₂, k ∉ l₁ → F k = 0) :
    (l₁.map F).sum = (l₂.map F).sum := by
  rw [← List.sum_toFinset F h₁, ← List.sum_toFinset F h₂]
  refine Finset.sum_subset ?_ ?_
  · intro a ha
    rw [List.mem_toFinset] at ha ⊢
    exact hsub a ha
  · intro a ha hna
    rw [List.mem_toFinset] at ha hna
    exact hz a ha hna

/-- The central bridge: the sum of an equation's terms under the zipped
solution assignment equals the dot product of the equation's matrix row
with the solution vector. -/
theorem evalTerms_eq_dotL {terms : List (K × ℚ)} {vars : List K} {x : List ℚ}
    (hterms : (terms.map Prod.fst).Nodup)
    (hsub : ∀ k ∈ terms.map Prod.fst, k ∈ vars)
    (hvars : vars.Nodup) (hlen : x.length = vars.length) :
    (terms.map (fun kc => kc.2 * (mapGet? (vars.zip x) kc.1).getD 0)).sum =
      dotL (vars.map (fun v => (mapGet? terms v).getD 0)) x := by
  have hvx : (vars.zip x).map Prod.fst = vars :=
    List.map_fst_zip vars x (le_of_eq hlen.symm)
  have hzipnd : ((vars.zip x).map Prod.fst).Nodup := by rw [hvx]; exact hvars
  set g : K → ℚ := fun k => (mapGet? (vars.zip x) k).getD 0 with hg
  set c : K → ℚ := fun v => (mapGet? terms v).getD 0 with hc
  have lhs_eq : (terms.map (fun kc => kc.2 * g kc.1)).sum =
      ((terms.map Prod.fst).map (fun k => c k * g k)).sum := by
    rw [List.map_map]
    congr 1
    apply List.map_congr_left
    intro kc hkc
    have : mapGet? terms kc.1 = some kc.2 := mapGet?_eq_of_mem hterms hkc
    simp only [Function.comp, hc, this, Option.getD_some]
  have rhs_eq : dotL (vars.map c) x = (vars.map (fun k => c k * g k)).sum := by
    rw [dotL_map]
    have step : ((vars.zip x).map (fun p => c p.1 * p.2)).sum =
        ((vars.zip x).map (fun p => c p.1 * g p.1)).sum := by
      congr 1
      apply List.map_congr_left
      intro p hp
      have : mapGet? (vars.zip x) p.1 = some p.2 := mapGet?_eq_of_mem hzipnd hp
      simp only [hg, this, Option.getD_some]
    rw [step]
    have : (vars.zip x).map (fun p => c p.1 * g p.1) =
        ((vars.zip x).map Prod.fst).map (fun k => c k * g k) := by
      rw [List.map_map]
      rfl
    rw [this, hvx]
  rw [lhs_eq, rhs_eq]
  refine sum_map_eq_of_zero_outside _ hterms hvars hsub ?_
  intro k _ hk
  have : mapGet? terms k = none := by
    apply mapGet?_eq_none_of_not_mem
    exact hk
  simp only [hc, this, Option.getD_none, zero_mul]

/-- Exactness of the modelled equation solver: a returned solution satisfies
every equation exactly. -/
theorem solveSystemOfEquations_exact {equations : List (Equation K)}
    {sol : List (K × ℚ)}
    (hnd : ∀ eq ∈ equations, (eq.terms.map Prod.fst).Nodup)
    (h : solveSystemOfEquations equations = some sol) :
    ∀ eq ∈ equations, evalEquation eq sol = 0 := by
  rw [solveSystemOfEquations] at h
  set vars := dedupFirst (equations.flatMap (fun e => e.terms.map Prod.fst)) with hvarsdef
  set a := equations.map (fun e => vars.map (fun v => (mapGet? e.terms v).getD 0)) with hadef
  set b := equations.map (fun e => -e.constant) with hbdef
  split at h
  · cases h
  · next x hg =>
      split at h
      · next hcheck =>
          have hsol : sol = vars.zip x := by
            injection h with h'
            exact h'.symm
          obtain ⟨hlen, hrows⟩ := hcheck
          intro eq heq
          have hrow : dotL (vars.map (fun v => (mapGet? eq.terms v).getD 0)) x = -eq.constant := by
            rw [hadef, hbdef] at hrows
            rw [List.map_map] at hrows
            exact list_map_eq_map_forall hrows eq heq
          have hsub : ∀ k ∈ eq.terms.map Prod.fst, k ∈ vars := by
            intro k hk
            rw [hvarsdef, mem_dedupFirst]
            exact List.mem_flatMap.mpr ⟨eq, heq, hk⟩
          rw [evalEquation, hsol]
          rw [evalTerms_eq_dotL (hnd eq heq) hsub (dedupFirst_nodup _) hlen, hrow]
          ring
      · cases h

end Statics

namespace Parse

/-! ## Parser invariants -/

theorem collectJointIds_spec : ∀ (js : List Joint) (seen out : List ℚ),
    collectJointIds js seen = some out →
    (js.map Joint.id).Nodup ∧ (∀ j ∈ js, j.id ∉ seen) ∧
    (∀ q : ℚ, q ∈ out ↔ q ∈ js.map Joint.id ∨ q ∈ seen) := by
  intro js
  induction js with
  | nil =>
      intro seen out h
      rw [collectJointIds] at h
      injection h with h
      subst h
      simp
  | cons j rest ih =>
      intro seen out h
      rw [collectJointIds] at h
      by_cases hj : j.id ∈ seen
      · rw [if_pos hj] at h; cases h
      · rw [if_neg hj] at h
        obtain ⟨hnd, hsn, hmem⟩ := ih (j.id :: seen) out h
        refine ⟨?_, ?_, ?_⟩
        · rw [List.map_cons, List.nodup_cons]
          refine ⟨?_, hnd⟩
          intro hin
          rcases List.mem_map.mp hin with ⟨j2, hj2, hid⟩
          exact hsn j2 hj2 (by rw [hid]; exact List.mem_cons_self _ _)
        · intro j2 hj2
          rcases List.mem_cons.mp hj2 with h1 | h1
          · rw [h1]; exact hj
          · intro hin
            exact hsn j2 h1 (List.mem_cons.mpr (Or.inr hin))
        · intro q
          rw [hmem q]
          simp only [List.map_cons, List.mem_cons]
          tauto

theorem checkMembers_spec : ∀ (ms : List Member) (jids acc : List ℚ),
    checkMembers ms jids acc = some () →
    (∀ mem ∈ ms, mem.id ∉ jids ∧ mem.id ∉ acc ∧
      mem.jointIds.1 ∈ jids ∧ mem.jointIds.2 ∈ jids) ∧
    (ms.map Member.id).Nodup := by
  intro ms
  induction ms with
  | nil =>
      intro jids acc _
      exact ⟨fun mem hm => absurd hm (List.not_mem_nil mem), List.nodup_nil⟩
  | cons m rest ih =>
      intro jids acc h
      rw [checkMembers] at h
      by_cases hc : m.id ∈ jids ∨ m.id ∈ acc ∨
          ¬(m.jointIds.1 ∈ jids ∧ m.jointIds.2 ∈ jids)
      · rw [if_pos hc] at h; cases h
      · rw [if_neg hc] at h
        push_neg at hc
        obtain ⟨h1, h2, h3⟩ := hc
        obtain ⟨hall, hnd⟩ := ih jids (m.id :: acc) h
        refine ⟨?_, ?_⟩
        · intro mem hm
          rcases List.mem_cons.mp hm with he | he
          · subst he
            exact ⟨h1, h2, h3⟩
          · obtain ⟨a1, a2, a3, a4⟩ := hall mem he
            exact ⟨a1, fun hacc => a2 (List.mem_cons.mpr (Or.inr hacc)), a3, a4⟩
        · rw [List.map_cons, List.nodup_cons]
          refine ⟨?_, hnd⟩
          intro hin
          rcases List.mem_map.mp hin with ⟨m2, hm2, hid⟩
          exact (hall m2 hm2).2.1 (by rw [hid]; exact List.mem_cons_self _ _)

/-- Structural inversion of a successful parse: the output aggregates are
exactly the checked lists. -/
theorem parseState_ok_inversion {v : JSValue} {st : State}
    (h : parseState v = Except.ok (some st)) :
    ∃ jointIds : List ℚ,
      collectJointIds st.joints [] = some jointIds ∧
      checkMembers st.members jointIds [] = some () := by
  rw [parseState] at h
  simp only [Bind.bind, Except.bind] at h
  split at h
  · cases h
  · split at h
    · cases h
    · rename_i jointsObject membersObject
      split at h
      · rename_i jointVals memberVals
        split at h
        · cases h
        · split at h
          · cases h
          · rename_i jointOpts hjo memberOpts hmo
            split at h
            · simp only [pure, Except.pure] at h
              cases h
            · split at h
              · simp only [pure, Except.pure] at h
                cases h
              · rename_i jointIds hcollect
                split at h
                · simp only [pure, Except.pure] at h
                  cases h
                · rename_i u hcheck
                  simp only [pure, Except.pure] at h
                  injection h with h
                  injection h with h
                  subst h
                  exact ⟨jointIds, hcollect, hcheck⟩
      · simp only [pure, Except.pure] at h
        cases h

end Parse

namespace Statics

/-! ## Claim C7: zero members -/

/-- C7: for every structure whose member list is empty, `solve` returns a
`Solution` whose problem list is exactly the one critical "no structural
members exist" problem, with neither a reaction-force map nor a
member-force map; no further validation ran (the problem list contains
nothing else). -/
theorem solve_of_no_members (s : State) (h : s.members = []) :
    solve s = Except.ok ⟨[⟨"No structural members exist", true, none⟩], none, none⟩ := by
  rw [solve, isSane, h]
  simp [List.find?]

/-- Witness for `solve_of_no_members` at the concrete empty structure. -/
theorem solve_of_no_members_witness :
    solve emptyMembersState =
      Except.ok ⟨[⟨"No structural members exist", true, none⟩], none, none⟩ :=
  solve_of_no_members emptyMembersState rfl

/-! ## Claim C3: the member-stage singular system crashes `solve` -/

/-- C3 (code bug): `collinearState` passes every validation check and its
reaction stage succeeds, yet `solve` throws a `TypeError` instead of
returning a `Solution` with the "could not solve for member forces"
problem and the computed reaction forces: `solveMembers` dereferences the
`null` returned by the equation solver (`src/math.ts`, the
`solveSystemOfEquations(equations).entries()` call), so the member-failure
handling in `solve` is unreachable. -/
theorem solve_throws_on_singular_member_system :
    isSane collinearState = Except.ok [] ∧
    solveORF collinearState = some [(1, ⟨0, 0⟩), (2, ⟨0, 0⟩), (3, ⟨0, 0⟩)] ∧
    solve collinearState = Except.error "TypeError: null has no entries()" := by
  refine ⟨by decide, by decide, by decide⟩

end Statics

namespace Parse

/-! ## Claim C4: totality of `parseState` -/

/-- C4 (code bug): `parseState` is not total.  `JSON.parse("null")`
succeeds with the value `null`, and the top-level destructuring
`const { joints, members } = stateObject` then throws a `TypeError`
instead of returning `null`.  (The same untested destructuring throws for
a `null` entry of the `joints` array and for a joint missing its `pos` or
`load` field.) -/
theorem parseState_throws_on_null_value :
    parseState JSValue.null =
      Except.error "TypeError: cannot destructure null or undefined" := rfl

/-! ## Claim C5: invariants of a successful parse -/

/-- C5 counterexample: `parseState` accepts a member whose two joint-id
references are equal, so the "two *distinct* joints" invariant of the data
model is not guaranteed by parsing (the later degenerate-member validation
is what flags it). -/
theorem parseState_accepts_equal_refs :
    parseState equalRefsValue = Except.ok (some equalRefsState) ∧
    ∃ mem ∈ equalRefsState.members, mem.jointIds.1 = mem.jointIds.2 := by
  constructor
  · rfl
  · exact ⟨⟨2, (1, 1)⟩, by decide, rfl⟩

/-- C5 (amended): every structure returned by `parseState` has unique joint
ids, unique member ids disjoint from the joint ids, and member references
that exist in the joint list; the distinctness of a member's two references
is *not* guaranteed. -/
theorem parseState_structure_invariants {v : JSValue} {st : State}
    (h : parseState v = Except.ok (some st)) :
    (st.joints.map Joint.id).Nodup ∧
    (st.members.map Member.id).Nodup ∧
    (∀ mem ∈ st.members, mem.id ∉ st.joints.map Joint.id) ∧
    (∀ mem ∈ st.members, mem.jointIds.1 ∈ st.joints.map Joint.id ∧
      mem.jointIds.2 ∈ st.joints.map Joint.id) := by
  obtain ⟨jointIds, hcollect, hcheck⟩ := parseState_ok_inversion h
  obtain ⟨hjnd, _, hmem⟩ := collectJointIds_spec _ _ _ hcollect
  obtain ⟨hall, hmnd⟩ := checkMembers_spec _ _ _ hcheck
  have hiff : ∀ q : ℚ, q ∈ jointIds ↔ q ∈ st.joints.map Joint.id := by
    intro q
    rw [hmem q]
    simp
  refine ⟨hjnd, hmnd, ?_, ?_⟩
  · intro mem hm hin
    exact (hall mem hm).1 ((hiff _).mpr hin)
  · intro mem hm
    exact ⟨(hiff _).mp (hall mem hm).2.2.1, (hiff _).mp (hall mem hm).2.2.2⟩

/-- Witness for `parseState_structure_invariants` at `equalRefsValue`. -/
theorem parseState_structure_invariants_witness :
    (equalRefsState.joints.map Joint.id).Nodup ∧
    (equalRefsState.members.map Member.id).Nodup ∧
    (∀ mem ∈ equalRefsState.members, mem.id ∉ equalRefsState.joints.map Joint.id) ∧
    (∀ mem ∈ equalRefsState.members,
      mem.jointIds.1 ∈ equalRefsState.joints.map Joint.id ∧
      mem.jointIds.2 ∈ equalRefsState.joints.map Joint.id) :=
  parseState_structure_invariants (v := equalRefsValue) rfl

end Parse

namespace Statics

/-! ## Claim C6: the determinacy heuristic -/

/-- C6: for every structure with members on which validation steps 2–5
(names, overlaps, degenerate members, duplicate members) produce no
problems at all, `isSane` reports the critical "not statically
determinate" problem citing `J`, `M`, `R` exactly when `2·J ≠ M + R`; and
whenever any step-2–5 problem exists — even only non-critical name
problems — the determinacy heuristic is not run at all (the result is
exactly the step-2–5 problem list). -/
theorem isSane_determinacy_heuristic (s : State) (d u : List Problem)
    (hm : s.members ≠ [])
    (hd : degenerateProblems s = Except.ok d)
    (hu : duplicateProblems s = Except.ok u) :
    isSane s = Except.ok
      (if nameProblems s.joints ++ overlapProblems s.joints ++ d ++ u = [] then
        (if 2 * s.joints.length ≠ s.members.length + supportCount s then
          [⟨s!"Structure is not statically determinate (J={s.joints.length}, M={s.members.length}, R={supportCount s})",
            true, none⟩]
         else [])
       else nameProblems s.joints ++ overlapProblems s.joints ++ d ++ u) := by
  have hlen : ¬s.members.length = 0 := fun h0 => hm (List.length_eq_zero.mp h0)
  rw [isSane, if_neg hlen]
  simp only [Bind.bind, Except.bind, hd, hu, pure, Except.pure]
  by_cases hps : nameProblems s.joints ++ overlapProblems s.joints ++ d ++ u = []
  · rw [if_pos hps, hps]
    simp [determinacyProblems]
  · rw [if_neg hps]
    have hpos : (nameProblems s.joints ++ overlapProblems s.joints ++ d ++ u).length > 0 :=
      List.length_pos.mpr hps
    rw [if_pos hpos]

/-- Witness for `isSane_determinacy_heuristic` at the concrete triangle
truss (steps 2–5 silent, `2·3 = 3 + 3`, so no problem at all). -/
theorem isSane_determinacy_heuristic_witness : isSane triangleState = Except.ok [] := by
  rw [isSane_determinacy_heuristic triangleState [] [] (by decide) (by decide) (by decide)]
  decide

/-! ## Claim C9: the degenerate-member fix -/

theorem find_joint_isSome {joints : List Joint} {id : ℤ}
    (h : id ∈ joints.map Joint.id) : (joints.find? (fun j => j.id = id)).isSome := by
  induction joints with
  | nil => cases h
  | cons j rest ih =>
      rw [List.find?_cons]
      by_cases hj : j.id = id
      · simp [hj]
      · rw [List.map_cons, List.mem_cons] at h
        rcases h with h | h
        · exact absurd h.symm hj
        · simp only [hj, decide_eq_true_eq]
          simpa [hj] using ih h

theorem degenerateProblemsAux_ok (s : State) :
    ∀ ms : List Member,
      (∀ mem ∈ ms, mem.jointIds.1 ∈ s.joints.map Joint.id) →
      ∃ d, degenerateProblemsAux s ms = Except.ok d ∧
        ∀ mem ∈ ms, mem.jointIds.1 = mem.jointIds.2 →
          ∃ p ∈ d, p.critical = true ∧
            p.fix = some ⟨s.joints, s.members.filter (fun m2 => m2.id ≠ mem.id)⟩ := by
  intro ms
  induction ms with
  | nil =>
      intro _
      exact ⟨[], rfl, fun mem hm => absurd hm (List.not_mem_nil mem)⟩
  | cons m rest ih =>
      intro hrefs
      obtain ⟨d, hd, hprob⟩ := ih (fun mem hm => hrefs mem (List.mem_cons.mpr (Or.inr hm)))
      by_cases hdeg : m.jointIds.1 = m.jointIds.2
      · have hsome := find_joint_isSome (hrefs m (List.mem_cons.mpr (Or.inl rfl)))
        obtain ⟨j, hj⟩ := Option.isSome_iff_exists.mp hsome
        refine ⟨⟨s!"Invalid member exists on joint {j.name}", true,
            some ⟨s.joints, s.members.filter (fun m2 => m2.id ≠ m.id)⟩⟩ :: d, ?_, ?_⟩
        · rw [degenerateProblemsAux, if_pos hdeg, hj, hd]
          rfl
        · intro mem hm hmdeg
          rcases List.mem_cons.mp hm with he | he
          · subst he
            exact ⟨_, List.mem_cons_self _ _, rfl, rfl⟩
          · obtain ⟨p, hp, hcrit, hfix⟩ := hprob mem he hmdeg
            exact ⟨p, List.mem_cons.mpr (Or.inr hp), hcrit, hfix⟩
      · refine ⟨d, ?_, ?_⟩
        · rw [degenerateProblemsAux, if_neg hdeg]
          exact hd
        · intro mem hm hmdeg
          rcases List.mem_cons.mp hm with he | he
          · exact absurd (he ▸ hmdeg) hdeg
          · exact hprob mem he hmdeg

theorem duplicateProblemsAux_ok (s : State) :
    ∀ (ms : List Member) (seen : List (ℤ × ℤ)),
      (∀ mem ∈ ms, mem.jointIds.1 ∈ s.joints.map Joint.id ∧
        mem.jointIds.2 ∈ s.joints.map Joint.id) →
      ∃ u, duplicateProblemsAux s ms seen = Except.ok u := by
  intro ms
  induction ms with
  | nil => exact fun seen _ => ⟨[], rfl⟩
  | cons m rest ih =>
      intro seen hrefs
      have hrest := fun mem hm => hrefs mem (List.mem_cons.mpr (Or.inr hm))
      by_cases hk : sortedPairKey m.jointIds ∈ seen
      · have h1 := find_joint_isSome (hrefs m (List.mem_cons.mpr (Or.inl rfl))).1
        have h2 := find_joint_isSome (hrefs m (List.mem_cons.mpr (Or.inl rfl))).2
        obtain ⟨j1, hj1⟩ := Option.isSome_iff_exists.mp h1
        obtain ⟨j2, hj2⟩ := Option.isSome_iff_exists.mp h2
        obtain ⟨u, hu⟩ := ih seen hrest
        refine ⟨(⟨s!"Duplicate members exist between joints {j1.name} and {j2.name}", true,
          some ⟨s.joints, s.members.filter (fun m2 => m2.id ≠ m.id)⟩⟩ : Problem) :: u, ?_⟩
        rw [duplicateProblemsAux, if_pos hk, hj1, hj2, hu]
        rfl
      · obtain ⟨u, hu⟩ := ih (sortedPairKey m.jointIds :: seen) hrest
        refine ⟨u, ?_⟩
        rw [duplicateProblemsAux, if_neg hk]
        exact hu

/-- C9: for every structure containing a degenerate member (equal endpoint
ids) — with the §3 invariants that parsing guarantees (references exist,
member ids unique) — the validator emits a critical problem whose fix is
the structure with exactly that member removed and the joint list shared
unchanged.  (The fix closure is pure; it is modelled by its result.) -/
theorem isSane_degenerate_member_fix (s : State) (m : Member)
    (hm : m ∈ s.members) (hdeg : m.jointIds.1 = m.jointIds.2)
    (hrefs : ∀ mem ∈ s.members, mem.jointIds.1 ∈ s.joints.map Joint.id ∧
      mem.jointIds.2 ∈ s.joints.map Joint.id)
    (hmids : (s.members.map Member.id).Nodup) :
    ∃ ps, isSane s = Except.ok ps ∧
      ∃ p ∈ ps, p.critical = true ∧
        p.fix = some ⟨s.joints, s.members.filter (fun m2 => m2.id ≠ m.id)⟩ ∧
        ∃ l₁ l₂, s.members = l₁ ++ m :: l₂ ∧
          s.members.filter (fun m2 => m2.id ≠ m.id) = l₁ ++ l₂ := by
  have hlen : ¬s.members.length = 0 := by
    intro h0
    rw [List.length_eq_zero.mp h0] at hm
    exact List.not_mem_nil m hm
  obtain ⟨d, hd, hprob⟩ :=
    degenerateProblemsAux_ok s s.members (fun mem hmem => (hrefs mem hmem).1)
  obtain ⟨u, hu⟩ := duplicateProblemsAux_ok s s.members [] hrefs
  obtain ⟨p, hp, hcrit, hfix⟩ := hprob m hm hdeg
  obtain ⟨l₁, l₂, hsplit⟩ := List.append_of_mem hm
  have hfilter : s.members.filter (fun m2 => m2.id ≠ m.id) = l₁ ++ l₂ := by
    have hids := hmids
    rw [hsplit] at hids
    rw [List.map_append, List.map_cons] at hids
    rw [List.nodup_append] at hids
    obtain ⟨hnd₁, hnd₂, hdisj⟩ := hids
    rw [hsplit, List.filter_append, List.filter_cons]
    have hm_self : (decide (m.id ≠ m.id)) = false := by simp
    rw [hm_self]
    simp only [Bool.false_eq_true, if_false]
    have hl₁ : l₁.filter (fun m2 => decide (m2.id ≠ m.id)) = l₁ := by
      rw [List.filter_eq_self]
      intro m2 hm2
      have : m2.id ≠ m.id := by
        intro he
        exact hdisj (List.mem_map_of_mem Member.id hm2) (by rw [he]; exact List.mem_cons_self _ _)
      simpa using this
    have hl₂ : l₂.filter (fun m2 => decide (m2.id ≠ m.id)) = l₂ := by
      rw [List.filter_eq_self]
      intro m2 hm2
      rw [List.nodup_cons] at hnd₂
      have : m2.id ≠ m.id := by
        intro he
        exact hnd₂.1 (he ▸ List.mem_map_of_mem Member.id hm2)
      simpa using this
    rw [hl₁, hl₂]
  have hd2 : degenerateProblems s = Except.ok d := hd
  have hu2 : duplicateProblems s = Except.ok u := hu
  rw [isSane, if_neg hlen]
  simp only [Bind.bind, Except.bind, hd2, hu2, pure, Except.pure]
  by_cases hps : (nameProblems s.joints ++ overlapProblems s.joints ++ d ++ u).length > 0
  · rw [if_pos hps]
    refine ⟨_, rfl, p, ?_, hcrit, hfix, l₁, l₂, hsplit, hfilter⟩
    exact List.mem_append.mpr (Or.inl (List.mem_append.mpr (Or.inr hp)))
  · rw [if_neg hps]
    refine ⟨_, rfl, p, ?_, hcrit, hfix, l₁, l₂, hsplit, hfilter⟩
    exact List.mem_append.mpr (Or.inl (List.mem_append.mpr (Or.inl
      (List.mem_append.mpr (Or.inr hp)))))

/-- Witness for `isSane_degenerate_member_fix` at the one-joint structure
with the degenerate member `(1, 1)`. -/
theorem isSane_degenerate_member_fix_witness :
    ∃ ps, isSane degMemberState = Except.ok ps ∧
      ∃ p ∈ ps, p.critical = true ∧
        p.fix = some ⟨degMemberState.joints,
          degMemberState.members.filter (fun m2 => m2.id ≠ (5 : ℤ))⟩ ∧
        ∃ l₁ l₂, degMemberState.members = l₁ ++ (⟨5, (1, 1)⟩ : Member) :: l₂ ∧
          degMemberState.members.filter (fun m2 => m2.id ≠ (5 : ℤ)) = l₁ ++ l₂ :=
  isSane_degenerate_member_fix degMemberState ⟨5, (1, 1)⟩ (by decide) (by decide)
    (by decide) (by decide)

end Statics

namespace Statics

theorem sqrtQ_eq_zero_iff (q : ℚ) : sqrtQ q = 0 ↔ q = 0 := by
  rw [sqrtQ]
  cases hr : ratExactSqrt q with
  | none => exact Iff.rfl
  | some r =>
      show r = 0 ↔ q = 0
      rw [ratExactSqrt] at hr
      set c : ℚ := (natSqrtDown q.num.toNat q.num.toNat : ℚ) /
        (natSqrtDown q.den q.den : ℚ) with hc
      by_cases hsq : c * c = q
      · rw [if_pos hsq] at hr
        injection hr with hr
        subst hr
        constructor
        · intro h0
          rw [h0] at hsq
          rw [← hsq]
          ring
        · intro h0
          rw [h0] at hsq
          exact mul_self_eq_zero.mp hsq
      · rw [if_neg hsq] at hr
        cases hr

end Statics

namespace JSFloat

/-! ## Claim C8: `withMag` on a zero-length vector -/

/-- C8 counterexample: for the zero vector (length exactly `fin 0`) and the
nonzero requested magnitude 5, `withMag` returns `(NaN, NaN)` — the factor
`5 / 0 = +Infinity` passes the `isNaN` guard and `0 * Infinity = NaN` —
and not the zero vector claimed. -/
theorem withMag_zero_len_nonzero_mag_is_nan :
    len ⟨.fin 0, .fin 0⟩ = .fin 0 ∧
    withMag ⟨.fin 0, .fin 0⟩ (.fin 5) = ⟨.nan, .nan⟩ ∧
    withMag ⟨.fin 0, .fin 0⟩ (.fin 5) ≠ ⟨.fin 0, .fin 0⟩ := by
  refine ⟨?_, ?_, ?_⟩ <;> decide

/-- C8 (amended): for every vector whose length is zero, `withMag` returns
the zero vector exactly when the requested (finite) magnitude is also zero
— the case in which the factor is the `NaN` `0 / 0`, which the guard
catches; for every nonzero finite magnitude the factor is infinite, the
guard does not fire, and both components of the result are `NaN`. -/
theorem withMag_zero_length (v : JSVec) (h : len v = .fin 0) :
    withMag v (.fin 0) = ⟨.fin 0, .fin 0⟩ ∧
    ∀ q : ℚ, q ≠ 0 → withMag v (.fin q) = ⟨.nan, .nan⟩ := by
  have hcomp : v.x = .fin 0 ∧ v.y = .fin 0 := by
    rcases v with ⟨x, y⟩
    cases x <;> cases y <;>
      simp only [len, add, mul, sqrt] at h <;>
      first
        | (rename_i a b
           constructor
           · show JSNum.fin _ = JSNum.fin 0
             by_cases hneg : a * a + b * b < 0
             · rw [if_pos hneg] at h; cases h
             · rw [if_neg hneg] at h
               injection h with h
               have hz := (Statics.sqrtQ_eq_zero_iff _).mp h
               have := mul_self_add_mul_self_eq_zero.mp hz
               rw [this.1]
           · show JSNum.fin _ = JSNum.fin 0
             by_cases hneg : a * a + b * b < 0
             · rw [if_pos hneg] at h; cases h
             · rw [if_neg hneg] at h
               injection h with h
               have hz := (Statics.sqrtQ_eq_zero_iff _).mp h
               have := mul_self_add_mul_self_eq_zero.mp hz
               rw [this.2])
        | (exfalso; cases h)
  obtain ⟨hx, hy⟩ := hcomp
  rcases v with ⟨x, y⟩
  simp only at hx hy
  subst hx
  subst hy
  constructor
  · decide
  · intro q hq
    rcases lt_trichotomy q 0 with hlt | heq | hgt
    · have hq0 : ¬q = 0 := hq
      have hnlt : ¬(0 : ℚ) < q := not_lt.mpr (le_of_lt hlt)
      simp only [withMag, len, add, mul, sqrt, div, isNaN, scale]
      norm_num [hq0, hnlt, Statics.sqrtQ_eq_zero_iff]
    · exact absurd heq hq
    · have hq0 : ¬q = 0 := hq
      simp only [withMag, len, add, mul, sqrt, div, isNaN, scale]
      norm_num [hq0, hgt, Statics.sqrtQ_eq_zero_iff]

/-- Witness for `withMag_zero_length` at the zero vector, magnitudes 0 and
5. -/
theorem withMag_zero_length_witness :
    withMag ⟨.fin 0, .fin 0⟩ (.fin 0) = ⟨.fin 0, .fin 0⟩ ∧
    withMag ⟨.fin 0, .fin 0⟩ (.fin 5) = ⟨.nan, .nan⟩ :=
  ⟨(withMag_zero_length ⟨.fin 0, .fin 0⟩ (by decide)).1,
   (withMag_zero_length ⟨.fin 0, .fin 0⟩ (by decide)).2 5 (by decide)⟩

end JSFloat

namespace Statics

/-! ## Generic fold lemmas -/

variable {K V : Type} [DecidableEq K]

/-- A fold of fresh `mapSet`s is an append of the bindings. -/
theorem foldl_mapSet_fresh {α : Type} (key : α → K) (val : α → V) :
    ∀ (l : List α) (acc : List (K × V)),
      (l.map key).Nodup → (∀ a ∈ l, key a ∉ acc.map Prod.fst) →
      l.foldl (fun m a => mapSet m (key a) (val a)) acc =
        acc ++ l.map (fun a => (key a, val a)) := by
  intro l
  induction l with
  | nil => intro acc _ _; simp
  | cons hd tl ih =>
      intro acc hnd hfresh
      rw [List.map_cons, List.nodup_cons] at hnd
      rw [List.foldl_cons]
      rw [mapSet_fresh (hfresh hd (List.mem_cons_self _ _)) (val hd)]
      rw [ih (acc ++ [(key hd, val hd)]) hnd.2 ?_]
      · simp
      · intro a ha
        rw [List.map_append, List.mem_append]
        rintro (hin | hin)
        · exact hfresh a (List.mem_cons.mpr (Or.inr ha)) hin
        · simp only [List.map_cons, List.map_nil, List.mem_singleton] at hin
          exact hnd.1 (hin ▸ List.mem_map_of_mem key ha)

omit [DecidableEq K] in
/-- Dropping list entries on which the function vanishes. -/
theorem sum_map_eq_sum_filter {α : Type} (p : α → Bool) (f : α → ℚ) :
    ∀ l : List α, (∀ a ∈ l, p a = false → f a = 0) →
      (l.map f).sum = ((l.filter p).map f).sum := by
  intro l
  induction l with
  | nil => intro _; rfl
  | cons hd tl ih =>
      intro h
      rw [List.map_cons, List.sum_cons, List.filter_cons]
      cases hp : p hd with
      | true =>
          simp only [if_pos]
          rw [List.map_cons, List.sum_cons, ih (fun a ha => h a (List.mem_cons.mpr (Or.inr ha)))]
      | false =>
          simp only [Bool.false_eq_true, if_false]
          rw [h hd (List.mem_cons_self _ _) hp, zero_add,
            ih (fun a ha => h a (List.mem_cons.mpr (Or.inr ha)))]

omit [DecidableEq K] in
/-- Two list members with the same image under a `Nodup` map coincide. -/
theorem eq_of_nodup_map {α β : Type} {f : α → β} {l : List α}
    (hnd : (l.map f).Nodup) {a b : α} (ha : a ∈ l) (hb : b ∈ l) (hf : f a = f b) :
    a = b := by
  induction l with
  | nil => cases ha
  | cons hd tl ih =>
      rw [List.map_cons, List.nodup_cons] at hnd
      rcases List.mem_cons.mp ha with h1 | h1 <;> rcases List.mem_cons.mp hb with h2 | h2
      · rw [h1, h2]
      · exfalso
        apply hnd.1
        rw [← h1, hf]
        exact List.mem_map_of_mem f h2
      · exfalso
        apply hnd.1
        rw [← h2, ← hf]
        exact List.mem_map_of_mem f h1
      · exact ih hnd.2 h1 h2

/-- The key list of a solved system: exactly the distinct variable names of
the equations, without duplicates. -/
theorem solveSystemOfEquations_keys {equations : List (Equation K)}
    {sol : List (K × ℚ)} (h : solveSystemOfEquations equations = some sol) :
    (sol.map Prod.fst).Nodup ∧
    ∀ k, k ∈ sol.map Prod.fst ↔ k ∈ equations.flatMap (fun e => e.terms.map Prod.fst) := by
  rw [solveSystemOfEquations] at h
  set vars := dedupFirst (equations.flatMap (fun e => e.terms.map Prod.fst)) with hvarsdef
  split at h
  · cases h
  · next x hg =>
      split at h
      · next hcheck =>
          injection h with h
          have hkeys : sol.map Prod.fst = vars := by
            rw [← h]
            exact List.map_fst_zip vars x (le_of_eq hcheck.1.symm)
          rw [hkeys]
          exact ⟨dedupFirst_nodup _, fun k => mem_dedupFirst⟩
      · cases h

end Statics

namespace Statics

/-- Characterization of the reaction-equation accumulation over a joint
list with pairwise-distinct ids, starting from an accumulator whose term
keys avoid those ids: constants accumulate the load sums and the terms are
appended in joint order. -/
theorem orfEquations_go : ∀ (joints : List Joint)
    (acc : Equation OrfKey × Equation OrfKey × Equation OrfKey),
    (∀ j ∈ joints, ∀ ax : Axis,
      (j.id, ax) ∉ acc.1.terms.map Prod.fst ∧
      (j.id, ax) ∉ acc.2.1.terms.map Prod.fst ∧
      (j.id, ax) ∉ acc.2.2.terms.map Prod.fst) →
    (joints.map Joint.id).Nodup →
    joints.foldl orfStep acc =
      (⟨acc.1.terms ++ joints.flatMap (fun j =>
          (if j.support.x then [((j.id, Axis.x), j.pos.cross ⟨1, 0⟩)] else []) ++
          (if j.support.y then [((j.id, Axis.y), j.pos.cross ⟨0, 1⟩)] else [])),
        acc.1.constant + (joints.map (fun j => j.pos.cross j.load)).sum⟩,
       ⟨acc.2.1.terms ++ (joints.filter (fun j => j.support.x)).map
          (fun j => ((j.id, Axis.x), (1 : ℚ))),
        acc.2.1.constant + (joints.map (fun j => j.load.x)).sum⟩,
       ⟨acc.2.2.terms ++ (joints.filter (fun j => j.support.y)).map
          (fun j => ((j.id, Axis.y), (1 : ℚ))),
        acc.2.2.constant + (joints.map (fun j => j.load.y)).sum⟩) := by
  intro joints
  induction joints with
  | nil =>
      intro acc _ _
      simp
  | cons j rest ih =>
      intro acc hfresh hnd
      rcases acc with ⟨mom, fx, fy⟩
      rw [List.map_cons, List.nodup_cons] at hnd
      have hfj := hfresh j (List.mem_cons_self _ _)
      have hxy : ((j.id, Axis.y) : OrfKey) ≠ (j.id, Axis.x) := by
        intro he
        cases he
      have hnotin : ∀ (old new : List (OrfKey × ℚ)),
          (∀ k ∈ new, k.1.1 = j.id) →
          ∀ j2 ∈ rest, ∀ ax : Axis, ((j2.id, ax) : OrfKey) ∉ old.map Prod.fst →
          ((j2.id, ax) : OrfKey) ∉ (old ++ new).map Prod.fst := by
        intro old new hall j2 hj2 ax hold hmem
        rw [List.map_append, List.mem_append] at hmem
        rcases hmem with hin | hin
        · exact hold hin
        · rcases List.mem_map.mp hin with ⟨kv, hkv, hk⟩
          have hne : j2.id ≠ j.id := by
            intro he
            exact hnd.1 (he ▸ List.mem_map_of_mem Joint.id hj2)
          apply hne
          have hid := hall kv hkv
          rw [hk] at hid
          exact hid
      have holdof : ∀ j2 ∈ rest, ∀ ax : Axis,
          ((j2.id, ax) : OrfKey) ∉ mom.terms.map Prod.fst ∧
          ((j2.id, ax) : OrfKey) ∉ fx.terms.map Prod.fst ∧
          ((j2.id, ax) : OrfKey) ∉ fy.terms.map Prod.fst :=
        fun j2 hj2 ax => hfresh j2 (List.mem_cons.mpr (Or.inr hj2)) ax
      rw [List.foldl_cons]
      by_cases hsx : j.support.x = true
      · by_cases hsy : j.support.y = true
        · have hstep : orfStep (mom, fx, fy) j =
              (⟨mom.terms ++ [((j.id, Axis.x), j.pos.cross ⟨1, 0⟩),
                  ((j.id, Axis.y), j.pos.cross ⟨0, 1⟩)],
                mom.constant + j.pos.cross j.load⟩,
               ⟨fx.terms ++ [((j.id, Axis.x), (1 : ℚ))], fx.constant + j.load.x⟩,
               ⟨fy.terms ++ [((j.id, Axis.y), (1 : ℚ))], fy.constant + j.load.y⟩) := by
            simp only [orfStep, hsx, hsy, if_true]
            rw [mapSet_fresh (hfj Axis.x).1, mapSet_fresh (hfj Axis.x).2.1,
              mapSet_fresh (hfj Axis.y).2.2]
            rw [mapSet_fresh ?_]
            · rw [List.append_assoc]
              rfl
            · rw [List.map_append, List.mem_append]
              rintro (hin | hin)
              · exact (hfj Axis.y).1 hin
              · simp only [List.map_cons, List.map_nil, List.mem_singleton] at hin
                exact hxy hin
          rw [hstep, ih _ ?_ hnd.2]
          · simp [List.flatMap_cons, List.filter_cons, hsx, hsy, List.append_assoc, add_assoc]
          · intro j2 hj2 ax
            exact ⟨hnotin _ _ (by intro k hk; fin_cases hk <;> rfl) j2 hj2 ax (holdof j2 hj2 ax).1,
              hnotin _ _ (by intro k hk; fin_cases hk <;> rfl) j2 hj2 ax (holdof j2 hj2 ax).2.1,
              hnotin _ _ (by intro k hk; fin_cases hk <;> rfl) j2 hj2 ax (holdof j2 hj2 ax).2.2⟩
        · have hstep : orfStep (mom, fx, fy) j =
              (⟨mom.terms ++ [((j.id, Axis.x), j.pos.cross ⟨1, 0⟩)],
                mom.constant + j.pos.cross j.load⟩,
               ⟨fx.terms ++ [((j.id, Axis.x), (1 : ℚ))], fx.constant + j.load.x⟩,
               ⟨fy.terms, fy.constant + j.load.y⟩) := by
            simp only [orfStep, hsx, hsy, if_true, Bool.false_eq_true, if_false]
            rw [mapSet_fresh (hfj Axis.x).1, mapSet_fresh (hfj Axis.x).2.1]
          rw [hstep, ih _ ?_ hnd.2]
          · simp [List.flatMap_cons, List.filter_cons, hsx, hsy, List.append_assoc, add_assoc]
          · intro j2 hj2 ax
            exact ⟨hnotin _ _ (by intro k hk; fin_cases hk <;> rfl) j2 hj2 ax (holdof j2 hj2 ax).1,
              hnotin _ _ (by intro k hk; fin_cases hk <;> rfl) j2 hj2 ax (holdof j2 hj2 ax).2.1,
              (holdof j2 hj2 ax).2.2⟩
      · by_cases hsy : j.support.y = true
        · have hstep : orfStep (mom, fx, fy) j =
              (⟨mom.terms ++ [((j.id, Axis.y), j.pos.cross ⟨0, 1⟩)],
                mom.constant + j.pos.cross j.load⟩,
               ⟨fx.terms, fx.constant + j.load.x⟩,
               ⟨fy.terms ++ [((j.id, Axis.y), (1 : ℚ))], fy.constant + j.load.y⟩) := by
            simp only [orfStep, hsx, hsy, if_true, Bool.false_eq_true, if_false]
            rw [mapSet_fresh (hfj Axis.y).1, mapSet_fresh (hfj Axis.y).2.2]
          rw [hstep, ih _ ?_ hnd.2]
          · simp [List.flatMap_cons, List.filter_cons, hsx, hsy, List.append_assoc, add_assoc]
          · intro j2 hj2 ax
            exact ⟨hnotin _ _ (by intro k hk; fin_cases hk <;> rfl) j2 hj2 ax (holdof j2 hj2 ax).1,
              (holdof j2 hj2 ax).2.1,
              hnotin _ _ (by intro k hk; fin_cases hk <;> rfl) j2 hj2 ax (holdof j2 hj2 ax).2.2⟩
        · have hstep : orfStep (mom, fx, fy) j =
              (⟨mom.terms, mom.constant + j.pos.cross j.load⟩,
               ⟨fx.terms, fx.constant + j.load.x⟩,
               ⟨fy.terms, fy.constant + j.load.y⟩) := by
            simp only [orfStep, hsx, hsy, Bool.false_eq_true, if_false]
          rw [hstep, ih _ ?_ hnd.2]
          · simp [List.flatMap_cons, List.filter_cons, hsx, hsy, List.append_assoc, add_assoc]
          · exact fun j2 hj2 ax => holdof j2 hj2 ax

end Statics

namespace Statics

/-- Lookups after an entry-wise conditional value update. -/
theorem mapGet?_entry_update (id2 : ℤ) (f : Vector2 → Vector2) :
    ∀ (orf : List (ℤ × Vector2)) (id : ℤ),
      mapGet? (orf.map (fun e => if e.1 = id2 then (e.1, f e.2) else e)) id =
        if id = id2 then (mapGet? orf id).map f else mapGet? orf id := by
  intro orf
  induction orf with
  | nil =>
      intro id
      by_cases h : id = id2 <;> simp [mapGet?, h]
  | cons hd tl ih =>
      intro id
      by_cases hh : hd.1 = id2
      · simp only [List.map_cons, if_pos hh]
        rw [mapGet?_cons, mapGet?_cons]
        by_cases hid : hd.1 = id
        · have hidid2 : id = id2 := by rw [← hid, hh]
          simp only [hid, if_pos rfl, if_pos hidid2]
          simp [hid]
        · simp only [hid, if_false]
          rw [ih id]
      · simp only [List.map_cons, if_neg hh]
        rw [mapGet?_cons, mapGet?_cons]
        by_cases hid : hd.1 = id
        · have : ¬(id = id2) := by
            intro he
            exact hh (by rw [hid, he])
          simp [hid, this]
        · simp only [hid, if_false]
          rw [ih id]

/-- A lookup in the reaction-unpacking fold is the fold of the per-entry
component updates on the looked-up vector. -/
theorem lookup_fold_update : ∀ (sol : List (OrfKey × ℚ)) (orf : List (ℤ × Vector2)) (id : ℤ),
    mapGet? (sol.foldl (fun o kv =>
        o.map (fun e => if e.1 = kv.1.1 then (e.1, e.2.setComp kv.1.2 kv.2) else e)) orf) id =
      (mapGet? orf id).map (fun v => sol.foldl
        (fun v kv => if kv.1.1 = id then v.setComp kv.1.2 kv.2 else v) v) := by
  intro sol
  induction sol with
  | nil =>
      intro orf id
      cases h : mapGet? orf id <;> simp [h]
  | cons kv rest ih =>
      intro orf id
      rw [List.foldl_cons, ih,
        mapGet?_entry_update kv.1.1 (fun v => v.setComp kv.1.2 kv.2)]
      by_cases hid : id = kv.1.1
      · subst hid
        simp only [if_true, if_pos rfl, Option.map_map, List.foldl_cons]
        cases hlk : mapGet? orf kv.1.1 with
        | none => simp
        | some v => simp [Function.comp]
      · simp only [hid, if_false, List.foldl_cons]
        cases hlk : mapGet? orf id with
        | none => simp
        | some v =>
            have hne : ¬(kv.1.1 = id) := fun he => hid he.symm
            simp [hne]

/-- The component-update fold under duplicate-free solution keys: each
component ends at the solved value for its key, or stays put. -/
theorem value_fold_char (id : ℤ) : ∀ (sol : List (OrfKey × ℚ)),
    (sol.map Prod.fst).Nodup → ∀ v : Vector2,
    sol.foldl (fun v kv => if kv.1.1 = id then v.setComp kv.1.2 kv.2 else v) v =
      ⟨(mapGet? sol (id, Axis.x)).getD v.x, (mapGet? sol (id, Axis.y)).getD v.y⟩ := by
  intro sol
  induction sol with
  | nil =>
      intro _ v
      simp [mapGet?]
  | cons kv rest ih =>
      intro hnd v
      rw [List.map_cons, List.nodup_cons] at hnd
      rw [List.foldl_cons, ih hnd.2]
      rcases kv with ⟨⟨kid, kax⟩, kval⟩
      by_cases hk : kid = id
      · subst hk
        cases kax with
        | x =>
            have hx : mapGet? (((kid, Axis.x), kval) :: rest) (kid, Axis.x) = some kval := by
              rw [mapGet?_cons]
              simp
            have hy : mapGet? (((kid, Axis.x), kval) :: rest) (kid, Axis.y) =
                mapGet? rest (kid, Axis.y) := by
              rw [mapGet?_cons]
              have : ((kid, Axis.x) : OrfKey) ≠ (kid, Axis.y) := by
                intro he
                cases he
              simp [this]
            have hrx : mapGet? rest (kid, Axis.x) = none :=
              mapGet?_eq_none_of_not_mem hnd.1
            rw [hx, hy, hrx]
            simp [Vector2.setComp]
        | y =>
            have hy : mapGet? (((kid, Axis.y), kval) :: rest) (kid, Axis.y) = some kval := by
              rw [mapGet?_cons]
              simp
            have hx : mapGet? (((kid, Axis.y), kval) :: rest) (kid, Axis.x) =
                mapGet? rest (kid, Axis.x) := by
              rw [mapGet?_cons]
              have : ((kid, Axis.y) : OrfKey) ≠ (kid, Axis.x) := by
                intro he
                cases he
              simp [this]
            have hry : mapGet? rest (kid, Axis.y) = none :=
              mapGet?_eq_none_of_not_mem hnd.1
            rw [hy, hx, hry]
            simp [Vector2.setComp]
      · have hx : mapGet? (((kid, kax), kval) :: rest) (id, Axis.x) =
            mapGet? rest (id, Axis.x) := by
          rw [mapGet?_cons]
          have : ((kid, kax) : OrfKey) ≠ (id, Axis.x) := by
            intro he
            injection he with h1 h2
            exact hk h1
          simp [this]
        have hy : mapGet? (((kid, kax), kval) :: rest) (id, Axis.y) =
            mapGet? rest (id, Axis.y) := by
          rw [mapGet?_cons]
          have : ((kid, kax) : OrfKey) ≠ (id, Axis.y) := by
            intro he
            injection he with h1 h2
            exact hk h1
          simp [this]
        rw [hx, hy]
        simp [hk]

end Statics

namespace Statics

/-- Membership in a joint's moment-equation term block. -/
theorem mem_block_iff (j : Joint) (kv : OrfKey × ℚ) :
    kv ∈ ((if j.support.x then [((j.id, Axis.x), j.pos.cross ⟨1, 0⟩)] else []) ++
          (if j.support.y then [((j.id, Axis.y), j.pos.cross ⟨0, 1⟩)] else [])) ↔
      (j.support.x = true ∧ kv = ((j.id, Axis.x), j.pos.cross ⟨1, 0⟩)) ∨
      (j.support.y = true ∧ kv = ((j.id, Axis.y), j.pos.cross ⟨0, 1⟩)) := by
  by_cases hx : j.support.x = true <;> by_cases hy : j.support.y = true <;>
    simp [hx, hy]

theorem nodup_moment_keys : ∀ joints : List Joint, (joints.map Joint.id).Nodup →
    ((joints.flatMap (fun j =>
      (if j.support.x then [((j.id, Axis.x), j.pos.cross ⟨1, 0⟩)] else []) ++
      (if j.support.y then [((j.id, Axis.y), j.pos.cross ⟨0, 1⟩)] else []))).map
        Prod.fst).Nodup := by
  intro joints
  induction joints with
  | nil => intro _; simp
  | cons j rest ih =>
      intro hnd
      rw [List.map_cons, List.nodup_cons] at hnd
      rw [List.flatMap_cons, List.map_append, List.nodup_append]
      refine ⟨?_, ih hnd.2, ?_⟩
      · by_cases hx : j.support.x = true <;> by_cases hy : j.support.y = true <;>
          simp [hx, hy]
      · intro k hk hk2
        rcases List.mem_map.mp hk with ⟨kv, hkv, hfst⟩
        rcases List.mem_map.mp hk2 with ⟨kv2, hkv2, hfst2⟩
        rcases List.mem_flatMap.mp hkv2 with ⟨j2, hj2, hbl2⟩
        have hid1 : kv.1.1 = j.id := by
          rcases (mem_block_iff j kv).mp hkv with ⟨_, he⟩ | ⟨_, he⟩ <;> rw [he]
        have hid2 : kv2.1.1 = j2.id := by
          rcases (mem_block_iff j2 kv2).mp hbl2 with ⟨_, he⟩ | ⟨_, he⟩ <;> rw [he]
        apply hnd.1
        have : j.id = j2.id := by
          rw [← hid1, ← hid2, hfst, hfst2]
        rw [this]
        exact List.mem_map_of_mem Joint.id hj2

theorem nodup_force_keys (ax : Axis) (c : ℚ) :
    ∀ (joints : List Joint) (p : Joint → Bool), (joints.map Joint.id).Nodup →
    (((joints.filter p).map (fun j => ((j.id, ax), c))).map Prod.fst).Nodup := by
  intro joints p hnd
  have hsub : (joints.filter p).Sublist joints := List.filter_sublist joints
  have hfil : ((joints.filter p).map Joint.id).Nodup := (hsub.map Joint.id).nodup hnd
  rw [List.map_map]
  have : ((fun kv => Prod.fst kv) ∘ fun j => ((j.id, ax), c)) =
      (fun i => ((i : ℤ), ax)) ∘ Joint.id := rfl
  rw [this, ← List.map_map]
  refine List.Nodup.map ?_ hfil
  intro a b hab
  exact congrArg Prod.fst hab

/-- An unsupported axis component of a joint never becomes a reaction
unknown: its key is not among the equations' variable names. -/
theorem unsupported_not_in_keys (s : State) (hids : (s.joints.map Joint.id).Nodup)
    {j : Joint} (hj : j ∈ s.joints) {ax : Axis} (hsup : ¬j.support.comp ax = true) :
    ((j.id, ax) : OrfKey) ∉
      ([(orfEquations s).1, (orfEquations s).2.1, (orfEquations s).2.2].flatMap
        (fun e => e.terms.map Prod.fst)) := by
  have hchar := orfEquations_go s.joints (⟨[], 0⟩, ⟨[], 0⟩, ⟨[], 0⟩)
    (by intro j2 _ ax2; exact ⟨List.not_mem_nil _, List.not_mem_nil _, List.not_mem_nil _⟩)
    hids
  rw [orfEquations]
  rw [hchar]
  intro hmem
  simp only [List.flatMap_cons, List.flatMap_nil, List.append_nil, List.mem_append,
    List.nil_append] at hmem
  have hofj : ∀ j2 ∈ s.joints, j2.id = j.id → j2 = j := by
    intro j2 hj2 he
    exact eq_of_nodup_map hids hj2 hj he
  rcases hmem with hmem | hmem | hmem
  · rcases List.mem_map.mp hmem with ⟨kv, hkv, hfst⟩
    rcases List.mem_flatMap.mp hkv with ⟨j2, hj2, hbl⟩
    rcases (mem_block_iff j2 kv).mp hbl with ⟨hs2, he⟩ | ⟨hs2, he⟩
    · rw [he] at hfst
      injection hfst with h1 h2
      have hjj := hofj j2 hj2 h1
      subst hjj
      cases ax with
      | x => exact hsup hs2
      | y => cases h2
    · rw [he] at hfst
      injection hfst with h1 h2
      have hjj := hofj j2 hj2 h1
      subst hjj
      cases ax with
      | x => cases h2
      | y => exact hsup hs2
  · rcases List.mem_map.mp hmem with ⟨kv, hkv, hfst⟩
    rcases List.mem_map.mp hkv with ⟨j2, hj2, he⟩
    rw [← he] at hfst
    injection hfst with h1 h2
    rcases List.mem_filter.mp hj2 with ⟨hj2m, hs2⟩
    have hjj := hofj j2 hj2m h1
    subst hjj
    cases ax with
    | x => exact hsup hs2
    | y => cases h2
  · rcases List.mem_map.mp hmem with ⟨kv, hkv, hfst⟩
    rcases List.mem_map.mp hkv with ⟨j2, hj2, he⟩
    rw [← he] at hfst
    injection hfst with h1 h2
    rcases List.mem_filter.mp hj2 with ⟨hj2m, hs2⟩
    have hjj := hofj j2 hj2m h1
    subst hjj
    cases ax with
    | x => cases h2
    | y => exact hsup hs2

/-- Splitting a sum of pointwise sums. -/
theorem sum_map_add {α : Type} (f g : α → ℚ) :
    ∀ l : List α, (l.map (fun a => f a + g a)).sum = (l.map f).sum + (l.map g).sum := by
  intro l
  induction l with
  | nil => simp
  | cons hd tl ih =>
      simp only [List.map_cons, List.sum_cons, ih]
      ring

/-- Summing a mapped flat map block-by-block. -/
theorem sum_map_flatMap {α β : Type} (g : α → List β) (f : β → ℚ) :
    ∀ l : List α, ((l.flatMap g).map f).sum = (l.map (fun a => ((g a).map f).sum)).sum := by
  intro l
  induction l with
  | nil => simp
  | cons hd tl ih =>
      rw [List.flatMap_cons, List.map_append, List.sum_append, ih, List.map_cons,
        List.sum_cons]

end Statics

namespace Statics

/-- A reaction map in a normally returned `Solution` is `solveORF`'s
output. -/
theorem solve_ok_orf {s : State} {sol : Solution} {orf : List (ℤ × Vector2)}
    (hsolve : solve s = Except.ok sol) (horf : sol.orf = some orf) :
    solveORF s = some orf := by
  rw [solve] at hsolve
  split at hsolve
  · cases hsolve
  · split at hsolve
    · injection hsolve with h
      rw [← h] at horf
      cases horf
    · split at hsolve
      · injection hsolve with h
        rw [← h] at horf
        cases horf
      · next orf2 horf2 =>
          split at hsolve
          · cases hsolve
          · injection hsolve with h
            rw [← h] at horf
            injection horf with h2
            rw [horf2, h2]
          · injection hsolve with h
            rw [← h] at horf
            injection horf with h2
            rw [horf2, h2]

/-- C1: for every structure (unique joint ids per the data model) on which
`solve` returns normally with a reaction-force map — i.e. validation found
no critical problem and the reaction-stage system had a unique solution —
the reactions satisfy global equilibrium exactly: the loads plus reactions
sum to zero on both axes, and the moments of loads plus reactions about
the origin sum to zero. -/
theorem solve_reaction_equilibrium (s : State)
    (hids : (s.joints.map Joint.id).Nodup)
    (sol : Solution) (hsolve : solve s = Except.ok sol)
    (orf : List (ℤ × Vector2)) (horf : sol.orf = some orf) :
    (s.joints.map (fun j => j.load.x + ((mapGet? orf j.id).getD ⟨0, 0⟩).x)).sum = 0 ∧
    (s.joints.map (fun j => j.load.y + ((mapGet? orf j.id).getD ⟨0, 0⟩).y)).sum = 0 ∧
    (s.joints.map (fun j => j.pos.cross j.load +
      j.pos.cross ((mapGet? orf j.id).getD ⟨0, 0⟩))).sum = 0 := by
  have horfs : solveORF s = some orf := solve_ok_orf hsolve horf
  have hchar := orfEquations_go s.joints (⟨[], 0⟩, ⟨[], 0⟩, ⟨[], 0⟩)
    (by intro j2 _ ax2; exact ⟨List.not_mem_nil _, List.not_mem_nil _, List.not_mem_nil _⟩)
    hids
  rw [solveORF] at horfs
  rw [show s.joints.foldl orfStep (⟨[], 0⟩, ⟨[], 0⟩, ⟨[], 0⟩) = orfEquations s from rfl] at hchar
  rw [hchar] at horfs
  simp only [List.nil_append, zero_add] at horfs hchar
  set momTerms := s.joints.flatMap (fun j =>
    (if j.support.x then [((j.id, Axis.x), j.pos.cross ⟨1, 0⟩)] else []) ++
    (if j.support.y then [((j.id, Axis.y), j.pos.cross ⟨0, 1⟩)] else [])) with hmomT
  set fxTerms := (s.joints.filter (fun j => j.support.x)).map
    (fun j => ((j.id, Axis.x), (1 : ℚ))) with hfxT
  set fyTerms := (s.joints.filter (fun j => j.support.y)).map
    (fun j => ((j.id, Axis.y), (1 : ℚ))) with hfyT
  split at horfs
  · cases horfs
  · next sol2 hsol2 =>
      injection horfs with horfs
      -- term keys of the three equations are duplicate-free
      have hndall : ∀ eq ∈ [(⟨momTerms, (s.joints.map (fun j => j.pos.cross j.load)).sum⟩ :
            Equation OrfKey),
          ⟨fxTerms, (s.joints.map (fun j => j.load.x)).sum⟩,
          ⟨fyTerms, (s.joints.map (fun j => j.load.y)).sum⟩],
          (eq.terms.map Prod.fst).Nodup := by
        intro eq heq
        rcases List.mem_cons.mp heq with he | he
        · rw [he, hmomT]
          exact nodup_moment_keys s.joints hids
        rcases List.mem_cons.mp he with he | he
        · rw [he, hfxT]
          exact nodup_force_keys Axis.x 1 s.joints _ hids
        rcases List.mem_cons.mp he with he | he
        · rw [he, hfyT]
          exact nodup_force_keys Axis.y 1 s.joints _ hids
        · cases he
      have hexact := solveSystemOfEquations_exact hndall hsol2
      have hkeys := solveSystemOfEquations_keys hsol2
      -- unsupported components are not solved for
      have hzero : ∀ j ∈ s.joints, ∀ ax : Axis, j.support.comp ax = false →
          mapGet? sol2 (j.id, ax) = none := by
        intro j hj ax hsup
        apply mapGet?_eq_none_of_not_mem
        intro hmem
        have hm2 := (hkeys.2 _).mp hmem
        have hnot := unsupported_not_in_keys s hids hj
          (by rw [hsup]; exact fun h => Bool.noConfusion h)
        apply hnot
        rw [hchar]
        simpa using hm2
      -- the reaction map records the solved values, defaulting to zero
      have hlook : ∀ j ∈ s.joints, (mapGet? orf j.id).getD ⟨0, 0⟩ =
          ⟨(mapGet? sol2 (j.id, Axis.x)).getD 0, (mapGet? sol2 (j.id, Axis.y)).getD 0⟩ := by
        intro j hj
        have h0 := foldl_mapSet_fresh Joint.id (fun _ => (⟨0, 0⟩ : Vector2)) s.joints []
          (by simpa using hids) (by simp)
        have h0keys : (s.joints.foldl (fun orf joint => mapSet orf joint.id ⟨0, 0⟩) [])
            = s.joints.map (fun j => (j.id, (⟨0, 0⟩ : Vector2))) := h0
        have hobase : mapGet? (s.joints.foldl
            (fun orf joint => mapSet orf joint.id (⟨0, 0⟩ : Vector2)) []) j.id
            = some (⟨0, 0⟩ : Vector2) := by
          rw [h0keys]
          have hmm : ((j.id, (⟨0, 0⟩ : Vector2))) ∈
              s.joints.map (fun j => (j.id, (⟨0, 0⟩ : Vector2))) :=
            List.mem_map_of_mem _ hj
          have hknd : ((s.joints.map (fun j => (j.id, (⟨0, 0⟩ : Vector2)))).map Prod.fst).Nodup := by
            rw [List.map_map]
            exact hids
          exact mapGet?_eq_of_mem hknd hmm
        rw [← horfs, lookup_fold_update, hobase]
        rw [Option.map_some']
        rw [value_fold_char j.id sol2 hkeys.1]
        rfl
      refine ⟨?_, ?_, ?_⟩
      · have heq := hexact _ (by exact List.mem_cons.mpr (Or.inr (List.mem_cons.mpr (Or.inl rfl))))
        rw [evalEquation] at heq
        have hcong : ∀ j ∈ s.joints,
            j.load.x + ((mapGet? orf j.id).getD ⟨0, 0⟩).x =
            j.load.x + (mapGet? sol2 (j.id, Axis.x)).getD 0 := by
          intro j hj
          rw [hlook j hj]
        rw [List.map_congr_left hcong]
        rw [sum_map_add]
        rw [sum_map_eq_sum_filter (fun j => j.support.x)
          (fun j => (mapGet? sol2 (j.id, Axis.x)).getD 0) s.joints
          (fun j hj hsup => by simp only [hzero j hj Axis.x hsup, Option.getD_none])]
        rw [hfxT, List.map_map] at heq
        have : ((s.joints.filter (fun j => j.support.x)).map
            ((fun kc => kc.2 * (mapGet? sol2 kc.1).getD 0) ∘
              (fun j => ((j.id, Axis.x), (1 : ℚ))))).sum =
            ((s.joints.filter (fun j => j.support.x)).map
              (fun j => (mapGet? sol2 (j.id, Axis.x)).getD 0)).sum := by
          congr 1
          apply List.map_congr_left
          intro j _
          simp [Function.comp]
        rw [this] at heq
        linarith
      · have heq := hexact _ (by
          exact List.mem_cons.mpr (Or.inr (List.mem_cons.mpr (Or.inr
            (List.mem_cons.mpr (Or.inl rfl))))))
        rw [evalEquation] at heq
        have hcong : ∀ j ∈ s.joints,
            j.load.y + ((mapGet? orf j.id).getD ⟨0, 0⟩).y =
            j.load.y + (mapGet? sol2 (j.id, Axis.y)).getD 0 := by
          intro j hj
          rw [hlook j hj]
        rw [List.map_congr_left hcong]
        rw [sum_map_add]
        rw [sum_map_eq_sum_filter (fun j => j.support.y)
          (fun j => (mapGet? sol2 (j.id, Axis.y)).getD 0) s.joints
          (fun j hj hsup => by simp only [hzero j hj Axis.y hsup, Option.getD_none])]
        rw [hfyT, List.map_map] at heq
        have : ((s.joints.filter (fun j => j.support.y)).map
            ((fun kc => kc.2 * (mapGet? sol2 kc.1).getD 0) ∘
              (fun j => ((j.id, Axis.y), (1 : ℚ))))).sum =
            ((s.joints.filter (fun j => j.support.y)).map
              (fun j => (mapGet? sol2 (j.id, Axis.y)).getD 0)).sum := by
          congr 1
          apply List.map_congr_left
          intro j _
          simp [Function.comp]
        rw [this] at heq
        linarith
      · have heq := hexact _ (List.mem_cons.mpr (Or.inl rfl))
        rw [evalEquation] at heq
        have hcong : ∀ j ∈ s.joints,
            j.pos.cross j.load + j.pos.cross ((mapGet? orf j.id).getD ⟨0, 0⟩) =
            j.pos.cross j.load + j.pos.cross
              ⟨(mapGet? sol2 (j.id, Axis.x)).getD 0,
               (mapGet? sol2 (j.id, Axis.y)).getD 0⟩ := by
          intro j hj
          rw [hlook j hj]
        rw [List.map_congr_left hcong]
        rw [sum_map_add]
        rw [hmomT, sum_map_flatMap] at heq
        have hbl : ∀ j ∈ s.joints,
            ((((if j.support.x then [((j.id, Axis.x), j.pos.cross ⟨1, 0⟩)] else []) ++
               (if j.support.y then [((j.id, Axis.y), j.pos.cross ⟨0, 1⟩)] else [])).map
                 (fun kc => kc.2 * (mapGet? sol2 kc.1).getD 0)).sum) =
            j.pos.cross ⟨(mapGet? sol2 (j.id, Axis.x)).getD 0,
              (mapGet? sol2 (j.id, Axis.y)).getD 0⟩ := by
          intro j hj
          by_cases hx : j.support.x = true <;> by_cases hy : j.support.y = true
          · simp only [hx, hy, if_true]
            simp [Vector2.cross]
            ring
          · have hy0 : mapGet? sol2 (j.id, Axis.y) = none :=
              hzero j hj Axis.y (by simpa using hy)
            simp only [hx, hy, if_true, Bool.false_eq_true, if_false]
            simp [Vector2.cross, hy0]
          · have hx0 : mapGet? sol2 (j.id, Axis.x) = none :=
              hzero j hj Axis.x (by simpa using hx)
            simp only [hx, hy, if_true, Bool.false_eq_true, if_false]
            simp [Vector2.cross, hx0]
          · have hx0 : mapGet? sol2 (j.id, Axis.x) = none :=
              hzero j hj Axis.x (by simpa using hx)
            have hy0 : mapGet? sol2 (j.id, Axis.y) = none :=
              hzero j hj Axis.y (by simpa using hy)
            simp only [hx, hy, Bool.false_eq_true, if_false]
            simp [Vector2.cross, hx0, hy0]
        rw [List.map_congr_left hbl] at heq
        linarith

/-- Witness for C1: the triangle truss satisfies every hypothesis of
`solve_reaction_equilibrium`, and its reactions `(0,5)` at A, `(0,5)` at B
and `(0,0)` at C balance the `(0,-10)` load and its moment exactly. -/
theorem solve_reaction_equilibrium_witness :
    (triangleState.joints.map
      (fun j => j.load.x + ((mapGet? triangleOrf j.id).getD ⟨0, 0⟩).x)).sum = 0 ∧
    (triangleState.joints.map
      (fun j => j.load.y + ((mapGet? triangleOrf j.id).getD ⟨0, 0⟩).y)).sum = 0 ∧
    (triangleState.joints.map (fun j => j.pos.cross j.load +
      j.pos.cross ((mapGet? triangleOrf j.id).getD ⟨0, 0⟩))).sum = 0 :=
  solve_reaction_equilibrium triangleState (by decide)
    ⟨[], some triangleOrf, some triangleForces⟩ (by decide) triangleOrf rfl

end Statics

namespace Statics

/-! ## Member-stage machinery: the joint lookup table, the per-joint
member index, and the member equations (claims C2 and C10) -/

variable {K V : Type} [DecidableEq K]

/-- Binding one key never removes another from an association list. -/
theorem isSome_mapGet?_mapSet (m : List (K × V)) (k k' : K) (v : V)
    (h : (mapGet? m k').isSome) : (mapGet? (mapSet m k v) k').isSome := by
  by_cases hk : k' = k
  · subst hk
    rw [mapGet?_mapSet_self]
    rfl
  · rw [mapGet?_mapSet_ne m hk]
    exact h

/-- Bind of a succeeding `Except` computation. -/
theorem except_bind_ok {α β : Type} (x : α) (f : α → Except String β) :
    (Except.ok x >>= f) = f x := rfl

/-- With duplicate-free joint ids the joint lookup table is the literal
association list of the joints keyed by their ids. -/
theorem jointLUT_eq (s : State) (hids : (s.joints.map Joint.id).Nodup) :
    jointLUT s = s.joints.map (fun j => (j.id, j)) :=
  foldl_mapSet_fresh Joint.id (fun j => j) s.joints [] (by simpa using hids) (by simp)

/-- Every joint of the structure is found in the lookup table under its
id. -/
theorem jointLUT_lookup (s : State) (hids : (s.joints.map Joint.id).Nodup)
    {j : Joint} (hj : j ∈ s.joints) : mapGet? (jointLUT s) j.id = some j := by
  rw [jointLUT_eq s hids]
  exact mapGet?_eq_of_mem (by rw [List.map_map]; exact hids) (List.mem_map_of_mem _ hj)

/-- The initial per-joint member index holds an empty list for every joint
id. -/
theorem membersForJointInit_lookup (s : State) (hids : (s.joints.map Joint.id).Nodup)
    {jid : ℤ} (hjid : jid ∈ s.joints.map Joint.id) :
    mapGet? (membersForJointInit s) jid = some [] := by
  have h : membersForJointInit s = s.joints.map (fun j => (j.id, ([] : List Member))) :=
    foldl_mapSet_fresh Joint.id (fun _ => ([] : List Member)) s.joints []
      (by simpa using hids) (by simp)
  rw [h]
  obtain ⟨j, hj, rfl⟩ := List.mem_map.mp hjid
  exact mapGet?_eq_of_mem (by rw [List.map_map]; exact hids) (List.mem_map_of_mem _ hj)

/-- One pass of the member-index filling loop: a member with two distinct
joint ids, both present in the index, is appended to both referenced
entries. -/
theorem pushStep_eq (mb : Member) (m : List (ℤ × List Member)) (la lb : List Member)
    (hne : mb.jointIds.1 ≠ mb.jointIds.2)
    (hla : mapGet? m mb.jointIds.1 = some la)
    (hlb : mapGet? m mb.jointIds.2 = some lb) :
    ([mb.jointIds.1, mb.jointIds.2].foldlM
      (fun m jointId =>
        match mapGet? m jointId with
        | none => Except.error "TypeError: cannot push onto undefined"
        | some lst => Except.ok (mapSet m jointId (lst ++ [mb])))
      m : Except String (List (ℤ × List Member))) =
    Except.ok (mapSet (mapSet m mb.jointIds.1 (la ++ [mb])) mb.jointIds.2 (lb ++ [mb])) := by
  have hb : mapGet? (mapSet m mb.jointIds.1 (la ++ [mb])) mb.jointIds.2 = some lb := by
    rw [mapGet?_mapSet_ne m (fun h => hne h.symm)]
    exact hlb
  simp only [List.foldlM_cons, List.foldlM_nil, hla, except_bind_ok, hb]
  rfl

/-- Characterization of the member-index filling loop of
`buildMembersForJoint`: starting from any index whose domain covers every
referenced joint id, the loop succeeds, and each entry is extended by
exactly the incident members in order — provided every member references
two distinct joint ids. -/
theorem buildMFJ_go :
    ∀ (members : List Member) (m0 : List (ℤ × List Member)),
      (∀ mb ∈ members, (mapGet? m0 mb.jointIds.1).isSome ∧
        (mapGet? m0 mb.jointIds.2).isSome ∧ mb.jointIds.1 ≠ mb.jointIds.2) →
      ∃ m1,
        members.foldlM
          (fun m member =>
            [member.jointIds.1, member.jointIds.2].foldlM
              (fun m jointId =>
                match mapGet? m jointId with
                | none => Except.error "TypeError: cannot push onto undefined"
                | some lst => Except.ok (mapSet m jointId (lst ++ [member])))
              m)
          m0 = Except.ok m1 ∧
        ∀ jid : ℤ, mapGet? m1 jid = (mapGet? m0 jid).map
          (fun l => l ++ members.filter
            (fun mb => mb.jointIds.1 = jid ∨ mb.jointIds.2 = jid)) := by
  intro members
  induction members with
  | nil =>
      intro m0 _
      refine ⟨m0, rfl, ?_⟩
      intro jid
      cases h : mapGet? m0 jid <;> simp [h]
  | cons mb rest ih =>
      intro m0 hprem
      obtain ⟨hs1, hs2, hne⟩ := hprem mb (List.mem_cons_self _ _)
      obtain ⟨la, hla⟩ := Option.isSome_iff_exists.mp hs1
      obtain ⟨lb, hlb⟩ := Option.isSome_iff_exists.mp hs2
      have hstep := pushStep_eq mb m0 la lb hne hla hlb
      have hrest : ∀ mb2 ∈ rest,
          (mapGet? (mapSet (mapSet m0 mb.jointIds.1 (la ++ [mb]))
            mb.jointIds.2 (lb ++ [mb])) mb2.jointIds.1).isSome ∧
          (mapGet? (mapSet (mapSet m0 mb.jointIds.1 (la ++ [mb]))
            mb.jointIds.2 (lb ++ [mb])) mb2.jointIds.2).isSome ∧
          mb2.jointIds.1 ≠ mb2.jointIds.2 := by
        intro mb2 hmb2
        obtain ⟨h1, h2, h3⟩ := hprem mb2 (List.mem_cons.mpr (Or.inr hmb2))
        exact ⟨isSome_mapGet?_mapSet _ _ _ _ (isSome_mapGet?_mapSet _ _ _ _ h1),
          isSome_mapGet?_mapSet _ _ _ _ (isSome_mapGet?_mapSet _ _ _ _ h2), h3⟩
      obtain ⟨m1, hfold, hchar⟩ := ih _ hrest
      refine ⟨m1, ?_, ?_⟩
      · rw [List.foldlM_cons, hstep, except_bind_ok]
        exact hfold
      · intro jid
        rw [hchar jid]
        by_cases h2 : jid = mb.jointIds.2
        · rw [h2, mapGet?_mapSet_self, hlb]
          simp [List.filter_cons]
        · rw [mapGet?_mapSet_ne _ h2]
          by_cases h1 : jid = mb.jointIds.1
          · rw [h1, mapGet?_mapSet_self, hla]
            simp [List.filter_cons]
          · rw [mapGet?_mapSet_ne _ h1]
            have hp1 : ¬(mb.jointIds.1 = jid) := fun h => h1 h.symm
            have hp2 : ¬(mb.jointIds.2 = jid) := fun h => h2 h.symm
            simp [List.filter_cons, hp1, hp2]

/-- Under the data-model invariants — joint ids unique, member references
existing and distinct — `buildMembersForJoint` succeeds, and the entry of
each joint id is exactly the list of members incident to it, in member
order. -/
theorem buildMembersForJoint_char (s : State)
    (hids : (s.joints.map Joint.id).Nodup)
    (hrefs : ∀ mb ∈ s.members, mb.jointIds.1 ∈ s.joints.map Joint.id ∧
      mb.jointIds.2 ∈ s.joints.map Joint.id)
    (hdist : ∀ mb ∈ s.members, mb.jointIds.1 ≠ mb.jointIds.2) :
    ∃ mfj, buildMembersForJoint s = Except.ok mfj ∧
      ∀ jid ∈ s.joints.map Joint.id, mapGet? mfj jid =
        some (s.members.filter
          (fun mb => mb.jointIds.1 = jid ∨ mb.jointIds.2 = jid)) := by
  have hprem : ∀ mb ∈ s.members,
      (mapGet? (membersForJointInit s) mb.jointIds.1).isSome ∧
      (mapGet? (membersForJointInit s) mb.jointIds.2).isSome ∧
      mb.jointIds.1 ≠ mb.jointIds.2 := by
    intro mb hmb
    refine ⟨?_, ?_, hdist mb hmb⟩
    · rw [membersForJointInit_lookup s hids (hrefs mb hmb).1]
      rfl
    · rw [membersForJointInit_lookup s hids (hrefs mb hmb).2]
      rfl
  obtain ⟨m1, hfold, hchar⟩ := buildMFJ_go s.members (membersForJointInit s) hprem
  refine ⟨m1, ?_, ?_⟩
  · rw [buildMembersForJoint]
    exact hfold
  · intro jid hjid
    rw [hchar jid, membersForJointInit_lookup s hids hjid]
    simp

/-- The term-building loop `memberEqnTerms`: when every listed member has
a resolvable other endpoint and member ids are duplicate-free and fresh
for the accumulator, the loop succeeds and appends one term per member,
with coefficient `memberDirComp`. -/
theorem memberEqnTerms_char (s : State) (j : Joint) (ax : Axis) :
    ∀ (lst : List Member) (acc : List (ℤ × ℚ)),
      (∀ mb ∈ lst, ∃ oid, findOtherId mb.jointIds j.id = some oid ∧
        (mapGet? (jointLUT s) oid).isSome) →
      (lst.map Member.id).Nodup →
      (∀ mb ∈ lst, mb.id ∉ acc.map Prod.fst) →
      memberEqnTerms s j ax lst acc =
        Except.ok (acc ++ lst.map (fun mb => (mb.id, memberDirComp s j mb ax))) := by
  intro lst
  induction lst with
  | nil =>
      intro acc _ _ _
      simp [memberEqnTerms]
  | cons mb rest ih =>
      intro acc hlk hnd hfresh
      obtain ⟨oid, hoid, hsome⟩ := hlk mb (List.mem_cons_self _ _)
      obtain ⟨other, hother⟩ := Option.isSome_iff_exists.mp hsome
      rw [List.map_cons, List.nodup_cons] at hnd
      have hdir : memberDirComp s j mb ax =
          ((other.pos.minus j.pos).withMag 1).comp ax := by
        simp only [memberDirComp, hoid, hother]
      rw [show memberEqnTerms s j ax (mb :: rest) acc =
          (match findOtherId mb.jointIds j.id with
           | none => Except.error "TypeError: cannot read pos of undefined"
           | some otherId =>
               match mapGet? (jointLUT s) otherId with
               | none => Except.error "TypeError: cannot read pos of undefined"
               | some other =>
                   memberEqnTerms s j ax rest
                     (mapSet acc mb.id (((other.pos.minus j.pos).withMag 1).comp ax)))
          from rfl]
      simp only [hoid, hother]
      rw [mapSet_fresh (hfresh mb (List.mem_cons_self _ _)) _]
      rw [ih (acc ++ [(mb.id, ((other.pos.minus j.pos).withMag 1).comp ax)])
        (fun mb2 hmb2 => hlk mb2 (List.mem_cons.mpr (Or.inr hmb2))) hnd.2 ?_]
      · rw [List.map_cons, hdir]
        simp
      · intro mb2 hmb2
        rw [List.map_append, List.mem_append]
        rintro (hin | hin)
        · exact hfresh mb2 (List.mem_cons.mpr (Or.inr hmb2)) hin
        · simp only [List.map_cons, List.map_nil, List.mem_singleton] at hin
          exact hnd.1 (hin ▸ List.mem_map_of_mem Member.id hmb2)

/-- One member-stage equation under resolved lookups: the terms are one
per incident member with the `memberDirComp` coefficient and the constant
is the load component plus the reaction component. -/
theorem memberEqn_char (s : State) (orf : List (ℤ × Vector2))
    (mfj : List (ℤ × List Member)) (j : Joint) (incident : List Member)
    (hmfj : mapGet? mfj j.id = some incident)
    (hterms : ∀ ax : Axis, memberEqnTerms s j ax incident [] =
      Except.ok (incident.map (fun mb => (mb.id, memberDirComp s j mb ax))))
    (ax : Axis) :
    memberEqn s orf mfj j ax = Except.ok
      { terms := incident.map (fun mb => (mb.id, memberDirComp s j mb ax)),
        constant := j.load.comp ax + ((mapGet? orf j.id).getD ⟨0, 0⟩).comp ax } := by
  have hc : (match mapGet? orf j.id with
      | some v => v.comp ax
      | none => (0 : ℚ)) = ((mapGet? orf j.id).getD ⟨0, 0⟩).comp ax := by
    cases h : mapGet? orf j.id
    · cases ax <;> rfl
    · rfl
  simp only [memberEqn, hmfj, hterms ax, hc]

/-- The outer equation-collecting loop of `buildMemberEquations`: with
every per-joint-and-axis equation resolving successfully, the loop
returns the equations of all joints in order, axis `x` before `y`. -/
theorem eqs_fold_char (f : Joint → Axis → Except String (Equation ℤ))
    (E : Joint → Axis → Equation ℤ) :
    ∀ (joints : List Joint) (acc : List (Equation ℤ)),
      (∀ j ∈ joints, ∀ ax : Axis, f j ax = Except.ok (E j ax)) →
      joints.foldlM
        (fun eqs joint =>
          [Axis.x, Axis.y].foldlM
            (fun eqs axis =>
              match f joint axis with
              | .error e => .error e
              | .ok eq => Except.ok (eqs ++ [eq]))
            eqs)
        acc
      = Except.ok (acc ++ joints.flatMap (fun j => [E j Axis.x, E j Axis.y])) := by
  intro joints
  induction joints with
  | nil =>
      intro acc _
      rw [List.foldlM_nil]
      simp only [List.flatMap_nil, List.append_nil]
      rfl
  | cons j rest ih =>
      intro acc hok
      rw [List.foldlM_cons]
      have hx := hok j (List.mem_cons_self _ _) Axis.x
      have hy := hok j (List.mem_cons_self _ _) Axis.y
      have hinner : ([Axis.x, Axis.y].foldlM
          (fun eqs axis =>
            match f j axis with
            | .error e => .error e
            | .ok eq => Except.ok (eqs ++ [eq]))
          acc : Except String (List (Equation ℤ))) =
          Except.ok (acc ++ [E j Axis.x, E j Axis.y]) := by
        simp only [List.foldlM_cons, List.foldlM_nil, hx, hy, except_bind_ok]
        simp only [List.append_assoc, List.singleton_append]
        rfl
      rw [hinner, except_bind_ok,
        ih _ (fun j2 h2 ax => hok j2 (List.mem_cons.mpr (Or.inr h2)) ax)]
      simp

/-- Inversion of a fully solved `solve` run: a returned member-force map
pins down the reaction map, the reaction stage, and the member stage. -/
theorem solve_ok_members {s : State} {sol : Solution} {forces : List (ℤ × ℚ)}
    (hsolve : solve s = Except.ok sol) (hmf : sol.memberForces = some forces) :
    ∃ orf, sol.orf = some orf ∧ solveORF s = some orf ∧
      solveMembers s orf = Except.ok (some forces) := by
  rw [solve] at hsolve
  split at hsolve
  · cases hsolve
  · split at hsolve
    · injection hsolve with h
      rw [← h] at hmf
      cases hmf
    · split at hsolve
      · injection hsolve with h
        rw [← h] at hmf
        cases hmf
      · next orf2 horf2 =>
          split at hsolve
          · cases hsolve
          · injection hsolve with h
            rw [← h] at hmf
            cases hmf
          · next mf2 hmf2 =>
              injection hsolve with h
              rw [← h] at hmf
              injection hmf with h2
              refine ⟨orf2, ?_, horf2, ?_⟩
              · rw [← h]
              · rw [← h2]
                exact hmf2

/-- A member with two distinct endpoint ids always has an "other endpoint"
relative to any joint id, and it is one of its two endpoints. -/
theorem findOtherId_of_distinct {ids : ℤ × ℤ} (h : ids.1 ≠ ids.2) (jid : ℤ) :
    ∃ oid, findOtherId ids jid = some oid ∧ (oid = ids.1 ∨ oid = ids.2) := by
  rw [findOtherId]
  by_cases h1 : ids.1 ≠ jid
  · exact ⟨ids.1, by simp [h1], Or.inl rfl⟩
  · push_neg at h1
    have h2 : ids.2 ≠ jid := fun he => h (h1.trans he.symm)
    exact ⟨ids.2, by simp [h1, h2], Or.inr rfl⟩

/-- The ids of the members incident to a joint are duplicate-free when the
full member-id list is. -/
theorem incident_ids_nodup (s : State) (hmids : (s.members.map Member.id).Nodup)
    (p : Member → Bool) : ((s.members.filter p).map Member.id).Nodup :=
  List.Sublist.nodup (List.Sublist.map Member.id (List.filter_sublist _)) hmids

/-- C2: for every structure satisfying the data-model invariants (unique
joint ids, unique member ids, member references existing and distinct) on
which `solve` reaches the fully solved state — returning both a reaction
map and a member-force map — every joint is in equilibrium on both axes:
the sum over the members incident to the joint of the member's solved
axial force times the axis component of the unit vector from the joint
toward the member's other endpoint, plus the joint's load component, plus
the joint's reaction component (zero when unsupported), is exactly zero. -/
theorem solve_member_equilibrium (s : State)
    (hids : (s.joints.map Joint.id).Nodup)
    (hmids : (s.members.map Member.id).Nodup)
    (hrefs : ∀ mb ∈ s.members, mb.jointIds.1 ∈ s.joints.map Joint.id ∧
      mb.jointIds.2 ∈ s.joints.map Joint.id)
    (hdist : ∀ mb ∈ s.members, mb.jointIds.1 ≠ mb.jointIds.2)
    (sol : Solution) (hsolve : solve s = Except.ok sol)
    (forces : List (ℤ × ℚ)) (hmf : sol.memberForces = some forces)
    (orf : List (ℤ × Vector2)) (horf : sol.orf = some orf)
    (j : Joint) (hj : j ∈ s.joints) (ax : Axis) :
    ((s.members.filter (fun mb => mb.jointIds.1 = j.id ∨ mb.jointIds.2 = j.id)).map
      (fun mb => (mapGet? forces mb.id).getD 0 * memberDirComp s j mb ax)).sum
    + j.load.comp ax + ((mapGet? orf j.id).getD ⟨0, 0⟩).comp ax = 0 := by
  obtain ⟨orf2, horf2, horfS, hsm⟩ := solve_ok_members hsolve hmf
  rw [horf] at horf2
  injection horf2 with horf2
  subst horf2
  obtain ⟨mfj, hbm, hmfjchar⟩ := buildMembersForJoint_char s hids hrefs hdist
  set E : Joint → Axis → Equation ℤ := fun j2 ax2 =>
    { terms := (s.members.filter
        (fun mb => mb.jointIds.1 = j2.id ∨ mb.jointIds.2 = j2.id)).map
          (fun mb => (mb.id, memberDirComp s j2 mb ax2)),
      constant := j2.load.comp ax2 + ((mapGet? orf j2.id).getD ⟨0, 0⟩).comp ax2 }
    with hEdef
  have hE : ∀ j2 ∈ s.joints, ∀ ax2 : Axis,
      memberEqn s orf mfj j2 ax2 = Except.ok (E j2 ax2) := by
    intro j2 hj2 ax2
    apply memberEqn_char s orf mfj j2 _
      (hmfjchar j2.id (List.mem_map_of_mem Joint.id hj2))
    intro ax3
    apply memberEqnTerms_char s j2 ax3 _ []
    · intro mb hmb
      have hmb2 : mb ∈ s.members := List.mem_of_mem_filter hmb
      obtain ⟨oid, hoid, hor⟩ := findOtherId_of_distinct (hdist mb hmb2) j2.id
      refine ⟨oid, hoid, ?_⟩
      rw [mapGet?_isSome_iff_mem, jointLUT_eq s hids, List.map_map]
      rcases hor with h | h
      · exact h ▸ (hrefs mb hmb2).1
      · exact h ▸ (hrefs mb hmb2).2
    · exact incident_ids_nodup s hmids _
    · intro mb _
      simp
  have h1 := eqs_fold_char (memberEqn s orf mfj) E s.joints [] hE
  have heqs : buildMemberEquations s orf =
      Except.ok (s.joints.flatMap (fun j2 => [E j2 Axis.x, E j2 Axis.y])) := by
    simp only [buildMemberEquations, hbm]
    exact h1
  rw [solveMembers, heqs] at hsm
  split at hsm
  · cases hsm
  · next sol3 hsol3 =>
      injection hsol3 with hsol3
      subst hsol3
      split at hsm
      · cases hsm
      · next fsol hfsol =>
          injection hsm with hsm
          injection hsm with hsm
          rw [hsm] at hfsol
          have hndall : ∀ eq ∈ s.joints.flatMap (fun j2 => [E j2 Axis.x, E j2 Axis.y]),
              (eq.terms.map Prod.fst).Nodup := by
            intro eq heq
            rw [List.mem_flatMap] at heq
            obtain ⟨j2, hj2, heq⟩ := heq
            have hnd := incident_ids_nodup s hmids
              (fun mb => decide (mb.jointIds.1 = j2.id ∨ mb.jointIds.2 = j2.id))
            rcases List.mem_cons.mp heq with he | he
            · rw [he, hEdef, List.map_map]
              exact hnd
            rcases List.mem_cons.mp he with he | he
            · rw [he, hEdef, List.map_map]
              exact hnd
            · cases he
          have hexact := solveSystemOfEquations_exact hndall hfsol
          have heq0 := hexact (E j ax)
            (List.mem_flatMap.mpr ⟨j, hj, by cases ax <;> simp⟩)
          rw [evalEquation, hEdef] at heq0
          rw [List.map_map] at heq0
          have hmc : ∀ mb ∈ s.members.filter
              (fun mb => mb.jointIds.1 = j.id ∨ mb.jointIds.2 = j.id),
              ((fun kc : ℤ × ℚ => kc.2 * (mapGet? forces kc.1).getD 0) ∘
                (fun mb => (mb.id, memberDirComp s j mb ax))) mb =
              (mapGet? forces mb.id).getD 0 * memberDirComp s j mb ax := by
            intro mb _
            simp [Function.comp, mul_comm]
          rw [List.map_congr_left hmc] at heq0
          have heq1 : (List.map
              (fun mb => (mapGet? forces mb.id).getD 0 * memberDirComp s j mb ax)
              (s.members.filter
                (fun mb => mb.jointIds.1 = j.id ∨ mb.jointIds.2 = j.id))).sum +
              (j.load.comp ax + ((mapGet? orf j.id).getD ⟨0, 0⟩).comp ax) = 0 := heq0
          linarith

/-- Witness for C2: joint `C` of the triangle truss on the `y` axis.  The
two incident members each contribute `(-25/3)·(-3/5) = 5`, balancing the
`-10` load; `C` carries no support, so its reaction component is zero. -/
theorem solve_member_equilibrium_witness :
    ((triangleState.members.filter
      (fun mb => mb.jointIds.1 = (3 : ℤ) ∨ mb.jointIds.2 = (3 : ℤ))).map
      (fun mb => (mapGet? triangleForces mb.id).getD 0 *
        memberDirComp triangleState ⟨3, "C", ⟨4, 3⟩, ⟨0, -10⟩, ⟨false, false⟩⟩
          mb Axis.y)).sum
    + (⟨3, "C", ⟨4, 3⟩, ⟨0, -10⟩, ⟨false, false⟩⟩ : Joint).load.comp Axis.y
    + ((mapGet? triangleOrf 3).getD ⟨0, 0⟩).comp Axis.y = 0 :=
  solve_member_equilibrium triangleState (by decide) (by decide) (by decide) (by decide)
    ⟨[], some triangleOrf, some triangleForces⟩ (by decide) triangleForces rfl
    triangleOrf rfl ⟨3, "C", ⟨4, 3⟩, ⟨0, -10⟩, ⟨false, false⟩⟩ (by decide) Axis.y

/-- C10: for every structure satisfying the data-model invariants (unique
joint ids, unique member ids, member references existing and distinct) and
any reaction map, every lookup of the member stage is defined: the
equation-building pass — each member's entry in the per-joint index, the
other-endpoint search, and the joint-table lookup — succeeds outright, so
the only failure `solveMembers` can still produce is the reported
null-dereference of a singular system (claim C3), never a missing-value
dereference of its own lookups. -/
theorem solveMembers_lookups_defined (s : State) (orf : List (ℤ × Vector2))
    (hids : (s.joints.map Joint.id).Nodup)
    (hmids : (s.members.map Member.id).Nodup)
    (hrefs : ∀ mb ∈ s.members, mb.jointIds.1 ∈ s.joints.map Joint.id ∧
      mb.jointIds.2 ∈ s.joints.map Joint.id)
    (hdist : ∀ mb ∈ s.members, mb.jointIds.1 ≠ mb.jointIds.2) :
    (buildMemberEquations s orf).isOk = true ∧
    ((solveMembers s orf).isOk = true ∨
      solveMembers s orf = Except.error "TypeError: null has no entries()") := by
  obtain ⟨mfj, hbm, hmfjchar⟩ := buildMembersForJoint_char s hids hrefs hdist
  have hE : ∀ j2 ∈ s.joints, ∀ ax2 : Axis,
      memberEqn s orf mfj j2 ax2 = Except.ok
        { terms := (s.members.filter
            (fun mb => mb.jointIds.1 = j2.id ∨ mb.jointIds.2 = j2.id)).map
              (fun mb => (mb.id, memberDirComp s j2 mb ax2)),
          constant := j2.load.comp ax2 +
            ((mapGet? orf j2.id).getD ⟨0, 0⟩).comp ax2 } := by
    intro j2 hj2 ax2
    apply memberEqn_char s orf mfj j2 _
      (hmfjchar j2.id (List.mem_map_of_mem Joint.id hj2))
    intro ax3
    apply memberEqnTerms_char s j2 ax3 _ []
    · intro mb hmb
      have hmb2 : mb ∈ s.members := List.mem_of_mem_filter hmb
      obtain ⟨oid, hoid, hor⟩ := findOtherId_of_distinct (hdist mb hmb2) j2.id
      refine ⟨oid, hoid, ?_⟩
      rw [mapGet?_isSome_iff_mem, jointLUT_eq s hids, List.map_map]
      rcases hor with h | h
      · exact h ▸ (hrefs mb hmb2).1
      · exact h ▸ (hrefs mb hmb2).2
    · exact incident_ids_nodup s hmids _
    · intro mb _
      simp
  have heqs : buildMemberEquations s orf =
      Except.ok (s.joints.flatMap (fun j2 =>
        [{ terms := (s.members.filter
              (fun mb => mb.jointIds.1 = j2.id ∨ mb.jointIds.2 = j2.id)).map
                (fun mb => (mb.id, memberDirComp s j2 mb Axis.x)),
            constant := j2.load.comp Axis.x +
              ((mapGet? orf j2.id).getD ⟨0, 0⟩).comp Axis.x },
          { terms := (s.members.filter
              (fun mb => mb.jointIds.1 = j2.id ∨ mb.jointIds.2 = j2.id)).map
                (fun mb => (mb.id, memberDirComp s j2 mb Axis.y)),
            constant := j2.load.comp Axis.y +
              ((mapGet? orf j2.id).getD ⟨0, 0⟩).comp Axis.y }])) := by
    simp only [buildMemberEquations, hbm]
    exact eqs_fold_char (memberEqn s orf mfj) _ s.joints [] hE
  refine ⟨by rw [heqs]; rfl, ?_⟩
  cases hcase : solveSystemOfEquations (s.joints.flatMap (fun j2 =>
      [{ terms := (s.members.filter
            (fun mb => mb.jointIds.1 = j2.id ∨ mb.jointIds.2 = j2.id)).map
              (fun mb => (mb.id, memberDirComp s j2 mb Axis.x)),
          constant := j2.load.comp Axis.x +
            ((mapGet? orf j2.id).getD ⟨0, 0⟩).comp Axis.x },
        { terms := (s.members.filter
            (fun mb => mb.jointIds.1 = j2.id ∨ mb.jointIds.2 = j2.id)).map
              (fun mb => (mb.id, memberDirComp s j2 mb Axis.y)),
          constant := j2.load.comp Axis.y +
            ((mapGet? orf j2.id).getD ⟨0, 0⟩).comp Axis.y }])) with
  | none =>
      right
      simp only [solveMembers, heqs, hcase]
  | some f =>
      left
      simp only [solveMembers, heqs, hcase]
      rfl

/-- Witness for C10: the triangle truss with its computed reaction map —
the member-stage lookups all succeed, and the member system being
non-singular, `solveMembers` returns normally. -/
theorem solveMembers_lookups_defined_witness :
    (buildMemberEquations triangleState triangleOrf).isOk = true ∧
    ((solveMembers triangleState triangleOrf).isOk = true ∨
      solveMembers triangleState triangleOrf =
        Except.error "TypeError: null has no entries()") :=
  solveMembers_lookups_defined triangleState triangleOrf
    (by decide) (by decide) (by decide) (by decide)

end Statics
